import Mathlib

/-!
Verification development for the `alplogs` log-parsing engine
(`gui/alplogparser.py`).

The Python source is shallowly embedded: every string primitive the parser
uses (`strip`, `split`, `replace`, `startswith`, `lower`, `upper`,
indexing, `int(...)`, `float(...)`, `strptime`) is modelled by a
structurally recursive Lean function over `List Char`, so that every
definition evaluates inside the kernel.  Fallible Python operations
(`int`, `float`, `strptime`, list indexing, attribute access on `None`)
are modelled with `Except PyError`.  Python `dict`s (insertion ordered,
assignment updates in place) are modelled by association lists with the
same update rule.  `datetime` values are modelled by plain record types
carrying the parsed fields; `float` values are represented by their
validated source text, since no claim depends on float arithmetic.

Input is the list of lines of the file, as Python's file iteration
yields them.
-/

set_option autoImplicit false

namespace Alp

/-! ## Python string primitives -/

/-- Characters stripped by Python's default `str.strip()` (ASCII range). -/
def isPyWS (c : Char) : Bool :=
  c == ' ' || c == '\t' || c == '\n' || c == '\r' || c == Char.ofNat 11 || c == Char.ofNat 12

def trimLeftL (l : List Char) : List Char := l.dropWhile isPyWS

def trimRightL (l : List Char) : List Char := (l.reverse.dropWhile isPyWS).reverse

/-- Python `str.strip()`. -/
def stripL (l : List Char) : List Char := trimRightL (trimLeftL l)

def pyStrip (s : String) : String := ⟨stripL s.data⟩

/-- Python `str.startswith(p)`. -/
def pyStarts (s p : String) : Bool := p.data.isPrefixOf s.data

/-- Python `s.split(sep)` for a one-character separator (the parser only
splits on `':'`). -/
def splitOnCharL (sep : Char) : List Char → List (List Char)
  | [] => [[]]
  | c :: rest =>
    match splitOnCharL sep rest with
    | [] => [[c]]
    | g :: gs => if c = sep then [] :: g :: gs else (c :: g) :: gs

def pySplitColon (s : String) : List String :=
  (splitOnCharL ':' s.data).map fun l => ⟨l⟩

/-- Python `s.split()` (split on whitespace runs, discarding empties):
worker carving the current token (held reversed in `acc`). -/
def splitWSGo : List Char → List Char → List (List Char)
  | [], acc => if acc = [] then [] else [acc.reverse]
  | c :: rest, acc =>
    if isPyWS c then
      if acc = [] then splitWSGo rest []
      else acc.reverse :: splitWSGo rest []
    else splitWSGo rest (c :: acc)

def pySplitWS (s : String) : List String :=
  (splitWSGo s.data []).map fun l => ⟨l⟩

/-- Returns `some (s minus the leading pat)` when `pat` is a prefix of `s`. -/
def dropPfx : List Char → List Char → Option (List Char)
  | [], s => some s
  | _ :: _, [] => none
  | p :: ps, c :: cs => if p = c then dropPfx ps cs else none

/-- Fuel-driven worker for Python `str.replace` with a nonempty pattern:
left-to-right, non-overlapping.  `fuel ≥ s.length` makes the fuel
irrelevant (each step consumes at least one character). -/
def replGo : Nat → List Char → List Char → List Char → List Char
  | _, [], _, _ => []
  | 0, s, _, _ => s
  | fuel + 1, c :: rest, pat, rep =>
    match dropPfx pat (c :: rest) with
    | some rem => rep ++ replGo fuel rem pat rep
    | none => c :: replGo fuel rest pat rep

/-- Python `s.replace(pat, rep)`.  An empty pattern interleaves `rep`
around every character, as in Python. -/
def pyReplace (s pat rep : String) : String :=
  if pat.data = [] then
    ⟨rep.data ++ s.data.flatMap fun c => c :: rep.data⟩
  else
    ⟨replGo s.data.length s.data pat.data rep.data⟩

/-- Python ASCII `str.lower()` (inputs are ASCII). -/
def pyLower (s : String) : String :=
  ⟨s.data.map fun c => if 'A' ≤ c ∧ c ≤ 'Z' then Char.ofNat (c.toNat + 32) else c⟩

/-- Python ASCII `str.upper()`. -/
def pyUpper (s : String) : String :=
  ⟨s.data.map fun c => if 'a' ≤ c ∧ c ≤ 'z' then Char.ofNat (c.toNat - 32) else c⟩

/-- Substring containment, Python's `pat in s`. -/
def occursIn (pat : List Char) : List Char → Bool
  | [] => pat.isPrefixOf []
  | c :: rest => pat.isPrefixOf (c :: rest) || occursIn pat rest

def pyContains (s pat : String) : Bool := occursIn pat.data s.data

/-! ## Python runtime errors and fallible primitives -/

inductive PyError where
  | valueError (msg : String)
  | attributeError (msg : String)
  | indexError (msg : String)
  deriving DecidableEq, Repr

/-- Python list indexing `l[i]` (nonnegative index). -/
def pyIndex {α : Type} (l : List α) (i : Nat) : Except PyError α :=
  match l[i]? with
  | some x => .ok x
  | none => .error (.indexError "list index out of range")

def digitVal (c : Char) : Option Nat :=
  if '0' ≤ c ∧ c ≤ '9' then some (c.toNat - 48) else none

def digitsToNat : List Char → Option Nat
  | [] => none
  | l => l.foldl (fun acc c => match acc, digitVal c with
      | some n, some d => some (n * 10 + d)
      | _, _ => none) (some 0)

/-- Python `int(s)`: strip, optional sign, nonempty digit run. -/
def pyInt (s : String) : Except PyError Int :=
  let t := stripL s.data
  let core : List Char → Except PyError Int := fun ds =>
    match digitsToNat ds with
    | some n => .ok (n : Int)
    | none => .error (.valueError "invalid literal for int")
  match t with
  | '-' :: ds => (core ds).map (fun n => -n)
  | '+' :: ds => core ds
  | ds => core ds

def isDigitCh (c : Char) : Bool := '0' ≤ c && c ≤ '9'

/-- Syntax check for the mantissa of a Python float literal:
`digits [. digits] | digits . | . digits`. -/
def floatMantissaOk (l : List Char) : Bool :=
  match splitOnCharL '.' l with
  | [whole] => !whole.isEmpty && whole.all isDigitCh
  | [whole, frac] =>
    (!whole.isEmpty || !frac.isEmpty) && whole.all isDigitCh && frac.all isDigitCh
  | _ => false

def floatCoreOk (l : List Char) : Bool :=
  match splitOnCharL 'e' l with
  | [m] => floatMantissaOk m
  | [m, e] =>
    floatMantissaOk m &&
      (match e with
       | '+' :: ds => !ds.isEmpty && ds.all isDigitCh
       | '-' :: ds => !ds.isEmpty && ds.all isDigitCh
       | ds => !ds.isEmpty && ds.all isDigitCh)
  | _ => false

/-- Validity of a Python `float(s)` argument (decimal forms; the log
files never contain `inf`/`nan`). -/
def floatStrOk (s : String) : Bool :=
  let t := (stripL s.data).map fun c =>
    if 'A' ≤ c ∧ c ≤ 'Z' then Char.ofNat (c.toNat + 32) else c
  match t with
  | '+' :: rest => floatCoreOk rest
  | '-' :: rest => floatCoreOk rest
  | rest => floatCoreOk rest

/-! ## Data model -/

/-- Python `datetime.date` as produced by `strptime(data, '%Y-%M-%d').date()`:
the format string uses `%M` (minute!), so the month field of the result is
the default `1`; the minute is discarded by `.date()`. -/
structure PyDate where
  year : Nat
  month : Nat
  day : Nat
  deriving DecidableEq, Repr

structure PyTime where
  hour : Nat
  minute : Nat
  second : Nat
  deriving DecidableEq, Repr

/-- Python `datetime.combine(date, time)`. -/
structure PyDateTime where
  date : PyDate
  time : PyTime
  deriving DecidableEq, Repr

/-- Greedy worker: consume up to `maxW` leading digits, threading the
accumulated value and the count of digits consumed. -/
def takeDigitsAux : Nat → List Char → Nat → Nat → Nat × Nat × List Char
  | 0, l, acc, cnt => (acc, cnt, l)
  | _ + 1, [], acc, cnt => (acc, cnt, [])
  | w + 1, c :: rest, acc, cnt =>
    match digitVal c with
    | some d => takeDigitsAux w rest (acc * 10 + d) (cnt + 1)
    | none => (acc, cnt, c :: rest)

/-- A run of 1 to `maxW` digits at the head of the list, as `strptime`
numeric directives consume them; returns the value and the remainder. -/
def takeDigits (maxW : Nat) (l : List Char) : Option (Nat × List Char) :=
  match takeDigitsAux maxW l 0 0 with
  | (_, 0, _) => none
  | (v, _ + 1, rest) => some (v, rest)

/-- Python `datetime.strptime(s, '%Y-%M-%d').date()`: year (up to 4
digits), `-`, minute (up to 2 digits, `≤ 59`), `-`, day (up to 2 digits,
`1..31`); the whole string must be consumed.  The resulting `date()` has
month `1` (the `%M` directive sets the minute, not the month). -/
def strptimeDateYMd (s : String) : Except PyError PyDate :=
  match takeDigits 4 s.data with
  | some (y, '-' :: r1) =>
    match takeDigits 2 r1 with
    | some (mi, '-' :: r2) =>
      match takeDigits 2 r2 with
      | some (d, []) =>
        if mi ≤ 59 ∧ 1 ≤ d ∧ d ≤ 31 then .ok ⟨y, 1, d⟩
        else .error (.valueError "time data does not match format")
      | _ => .error (.valueError "time data does not match format")
    | _ => .error (.valueError "time data does not match format")
  | _ => .error (.valueError "time data does not match format")

/-- Python `datetime.strptime(s, '%H:%M:%S').time()`. -/
def strptimeTimeHMS (s : String) : Except PyError PyTime :=
  match takeDigits 2 s.data with
  | some (h, ':' :: r1) =>
    match takeDigits 2 r1 with
    | some (mi, ':' :: r2) =>
      match takeDigits 2 r2 with
      | some (sec, []) =>
        if h ≤ 23 ∧ mi ≤ 59 ∧ sec ≤ 61 then .ok ⟨h, mi, sec⟩
        else .error (.valueError "time data does not match format")
      | _ => .error (.valueError "time data does not match format")
    | _ => .error (.valueError "time data does not match format")
  | _ => .error (.valueError "time data does not match format")

/-- Keys of the `items` dict.  `Users`/`Groups` store under Python `int`
keys (`self.items[index] = user`), every other write uses a `str` key. -/
inductive Key where
  | s (str : String)
  | n (num : Nat)
  deriving DecidableEq, Repr

/-- The values stored in `items`.  `vFloat` carries the validated source
text of the float (see the module docstring); `vMap` is the nested dict
used by `Memory`. -/
inductive Value where
  | vInt (n : Int)
  | vFloat (raw : String)
  | vBool (b : Bool)
  | vStr (s : String)
  | vList (l : List String)
  | vMap (m : List (String × Int))
  | vDate (d : PyDate)
  | vTime (t : PyTime)
  deriving DecidableEq, Repr

/-- The module (section-record) classes of `alplogparser.py`. -/
inductive Kind where
  | header | ignore | unknown | cpu | memory | network | ipaddress
  | disks | mount | zfspools | smartstatus | rcstatus | usb
  | upgradablepackages | process | users | groups
  deriving DecidableEq, Repr

/-- One `AlpLogModule` instance: its class, `self.timestamp`,
`self.items`, and the private accumulator list used by
`UpgradablePackages` (`_packages`) and `Users`/`Groups`
(`_users`/`_groups`). -/
structure Module where
  kind : Kind
  timestamp : Option PyDateTime
  items : List (Key × Value)
  extra : List String
  deriving DecidableEq, Repr

/-- Python dict assignment `d[k] = v`: update in place if the key
exists, else append. -/
def dinsert (k : Key) (v : Value) : List (Key × Value) → List (Key × Value)
  | [] => [(k, v)]
  | (k', v') :: rest =>
    if k' = k then (k, v) :: rest else (k', v') :: dinsert k v rest

def lookupKV (k : Key) : List (Key × Value) → Option Value
  | [] => none
  | (k', v) :: rest => if k' = k then some v else lookupKV k rest

def lookupItem (m : Module) (k : Key) : Option Value := lookupKV k m.items

/-- Python `key in self.items` (for the string keys the parser tests). -/
def hasKeyS (m : Module) (k : String) : Bool := (lookupItem m (Key.s k)).isSome

/-- Models `AlpLogModule.__init__`: `self.timestamp = None`,
`self.items = {'lines': []}` (plus the empty private list). -/
def freshModule (k : Kind) : Module :=
  ⟨k, none, [(Key.s "lines", Value.vList [])], []⟩

/-- The `'lines'` bucket of `items` (always a list for the kinds that
touch it). -/
def getLines (m : Module) : List String :=
  match lookupItem m (Key.s "lines") with
  | some (Value.vList l) => l
  | _ => []

/-- The structured fields of a record: `items` minus the raw-line
bucket. -/
def fields (m : Module) : List (Key × Value) :=
  m.items.filter fun kv => kv.1 ≠ Key.s "lines"

/-- A record's raw-line backlog (`items['lines']`). -/
def rawLines (m : Module) : List String := getLines m

/-! ## `split_first_colon` and module detection -/

/-- Models `split_first_colon` (alplogparser.py lines 28-34).  Note that
`line.replace(key, '')` deletes *every* occurrence of the key, not just
the leading one. -/
def splitFirstColon (line : String) : String × String :=
  let line := pyStrip line
  let parts := pySplitColon line
  let key := pyStrip (parts.headD "")
  let data := pyStrip (pyReplace line key "")
  let data2 := pyStrip ⟨data.data.drop 1⟩
  (key, data2)

/-- Models `factory` (lines 37-60): header label to module class, falling back
to `Unknown` for unrecognized labels. -/
def factoryKind (name : String) : Kind :=
  if name = "IGNORE" then .ignore
  else if name = "UNKNOWN" then .unknown
  else if name = "CPU" then .cpu
  else if name = "MEMORY" then .memory
  else if name = "NETWORK" then .network
  else if name = "EXTERNAL IP ADDRESS" then .ipaddress
  else if name = "DISKS" then .disks
  else if name = "MOUNT" then .mount
  else if name = "ZFS POOLS" then .zfspools
  else if name = "SMART STATUS" then .smartstatus
  else if name = "RC STATUS" then .rcstatus
  else if name = "USB" then .usb
  else if name = "UPGRADABLE PACKAGES" then .upgradablepackages
  else if name = "PROCESSES" then .process
  else if name = "USERS" then .users
  else if name = "GROUPS" then .groups
  else .unknown

/-- Models `AlpLogParser.detect_module` (lines 469-485). -/
def detectModule (line : String) : Option Module :=
  if pyStrip line = "STATUS INFORMATION" then some (freshModule .header)
  else if pyStrip line = "UPGRADABLE PACKAGES" then some (freshModule .upgradablepackages)
  else if pyStrip line = "ACCESS INFORMATION" then some (freshModule .ignore)
  else if pyStarts line "# " then
    some (freshModule (factoryKind (pyStrip (pyReplace (pyReplace line "# " "") ":" ""))))
  else none

/-! ## Per-kind `add_line` -/

/-- Models `AlpLogModule.add_line` (lines 70-73), used by `Ignore` and
`Unknown`: append the raw line to the `'lines'` bucket. -/
def baseAdd (m : Module) (line : String) : Except PyError (Module × Option Module) :=
  if pyStrip line = "" then .ok (m, none)
  else .ok ({m with
      items :=
    dinsert (Key.s "lines") (Value.vList (getLines m ++ [line])) m.items}, none)

/-- Models `Header.add_line` lines 127-130: derive the timestamp once both
`date` and `time` are present (both values are always truthy). -/
def headerDerive (m : Module) : Module :=
  if m.timestamp = none then
    match lookupItem m (Key.s "date"), lookupItem m (Key.s "time") with
    | some (Value.vDate d), some (Value.vTime t) => {m with timestamp := some ⟨d, t⟩}
    | _, _ => m
  else m

/-- The value computed by the key dispatch of `Header.add_line`
(lines 108-124); `none` models Python's `value = None`. -/
def headerValue (key data : String) : Except PyError (Option Value) :=
  if key = "date" then (strptimeDateYMd data).map fun d => some (Value.vDate d)
  else if key = "time" then (strptimeTimeHMS data).map fun t => some (Value.vTime t)
  else if key = "Kernel version" then .ok (some (Value.vStr (pyReplace data "#" "")))
  else if key = "send e-mail" then .ok (some (Value.vBool (data = "yes")))
  else .ok (if data ≠ "" then some (Value.vStr data) else none)

/-- Models `if value is not None: self.items[key] = value` (lines 125-126). -/
def headerStore (m : Module) (key : String) (v : Option Value) : Module :=
  match v with
  | some v => {m with items := dinsert (Key.s key) v m.items}
  | none => m

/-- Models `Header.add_line` (lines 103-130). -/
def headerAdd (m : Module) (line : String) : Except PyError (Module × Option Module) :=
  if pyStrip line = "" then .ok (m, none)
  else
    match headerValue (splitFirstColon (pyStrip line)).1 (splitFirstColon (pyStrip line)).2 with
    | .error e => .error e
    | .ok v =>
      .ok (headerDerive (headerStore m (splitFirstColon (pyStrip line)).1 v), none)

def cpuIntKeys : List String :=
  ["processor", "cpu family", "model", "stepping", "physical id", "siblings",
   "core id", "cpu cores", "apicid", "initial apicid", "cpuid level",
   "clflush size", "cache_alignment"]

def cpuFloatKeys : List String := ["cpu MHz", "bogomips"]

def cpuBoolKeys : List String := ["fpu", "fpu_exception", "wp"]

def cpuListKeys : List String := ["flags", "bugs", "power management"]

/-- The coercion performed by `CPU.add_line` (lines 149-161) on a
non-split line; the key/data pair is `split_first_colon(line.strip())`. -/
def cpuValue (line : String) : Except PyError Value :=
  if cpuIntKeys.contains (splitFirstColon (pyStrip line)).1 then
    (pyInt (splitFirstColon (pyStrip line)).2).map Value.vInt
  else if cpuFloatKeys.contains (splitFirstColon (pyStrip line)).1 then
    if floatStrOk (splitFirstColon (pyStrip line)).2 then
      .ok (Value.vFloat (pyStrip (splitFirstColon (pyStrip line)).2))
    else .error (.valueError "could not convert string to float")
  else if cpuBoolKeys.contains (splitFirstColon (pyStrip line)).1 then
    .ok (Value.vBool (pyLower (splitFirstColon (pyStrip line)).2 = "yes"))
  else if cpuListKeys.contains (splitFirstColon (pyStrip line)).1 then
    .ok (Value.vList (pySplitWS (splitFirstColon (pyStrip line)).2))
  else .ok (Value.vStr (splitFirstColon (pyStrip line)).2)

def cpuIngest (m : Module) (line : String) : Except PyError Module :=
  match cpuValue line with
  | .error e => .error e
  | .ok v =>
    .ok {m with items := dinsert (Key.s (splitFirstColon (pyStrip line)).1) v m.items}

/-- Models `CPU.add_line` (lines 135-163).  On a second `processor` key the
method builds a fresh instance, feeds it the same line (the fresh
instance has no `processor` key yet, so that call takes the ingestion
path), and returns it as the split signal, leaving `self` untouched. -/
def cpuAdd (m : Module) (line : String) : Except PyError (Module × Option Module) :=
  if pyStrip line = "" then .ok (m, none)
  else if (splitFirstColon (pyStrip line)).1 = "processor" ∧ hasKeyS m "processor" then
    match cpuIngest (freshModule .cpu) line with
    | .error e => .error e
    | .ok n => .ok (m, some n)
  else
    match cpuIngest m line with
    | .error e => .error e
    | .ok m2 => .ok (m2, none)

/-- Models `int(data[i])` for each listed column, in source order (index error
before conversion error, column by column). -/
def memRow (data : List String) : List (String × Nat) → Except PyError (List (String × Int))
  | [] => .ok []
  | (name, i) :: rest =>
    match pyIndex data i with
    | .error e => .error e
    | .ok s =>
      match pyInt s with
      | .error e => .error e
      | .ok n =>
        match memRow data rest with
        | .error e => .error e
        | .ok tl => .ok ((name, n) :: tl)

/-- Models `Memory.add_line` (lines 174-194).  Note the final `else: pass`:
non-blank lines starting with neither `Mem` nor `Swap` are silently
ignored. -/
def memoryAdd (m : Module) (line : String) : Except PyError (Module × Option Module) :=
  if pyStrip line = "" then .ok (m, none)
  else
    let data := pySplitWS line
    if pyStarts line "Mem" then
      match memRow data
          [("total", 1), ("used", 2), ("free", 3), ("shared", 4),
           ("buff/cache", 5), ("available", 6)] with
      | .error e => .error e
      | .ok row => .ok ({m with items := dinsert (Key.s "Mem") (Value.vMap row) m.items}, none)
    else if pyStarts line "Swap" then
      match memRow data [("total", 1), ("used", 2), ("free", 3)] with
      | .error e => .error e
      | .ok row => .ok ({m with items := dinsert (Key.s "Swap") (Value.vMap row) m.items}, none)
    else .ok (m, none)

/-- The interface-declaration branch of `Network.add_line`
(lines 227-232): colon-split parts give `index`, `name`, `name_other`,
and the `'lines'` bucket is reset. -/
def networkDecl (m : Module) (line : String) : Except PyError Module :=
  let parts := pySplitColon line
  match pyIndex parts 0 with
  | .error e => .error e
  | .ok p0 =>
    match pyInt p0 with
    | .error e => .error e
    | .ok idx =>
      match pyIndex parts 1 with
      | .error e => .error e
      | .ok p1 =>
        match pyIndex parts 2 with
        | .error e => .error e
        | .ok p2 =>
          .ok {m with
      items :=
            dinsert (Key.s "lines") (Value.vList [])
              (dinsert (Key.s "name_other") (Value.vStr (pyStrip p2))
                (dinsert (Key.s "name") (Value.vStr (pyStrip p1))
                  (dinsert (Key.s "index") (Value.vInt idx) m.items)))}

/-- Models `Network.add_line` (lines 217-239). -/
def networkAdd (m : Module) (line : String) : Except PyError (Module × Option Module) :=
  if pyStrip line = "" then .ok (m, none)
  else if !(pyStarts line "    ") then
    if hasKeyS m "name" then
      match networkDecl (freshModule .network) line with
      | .error e => .error e
      | .ok n => .ok (m, some n)
    else
      match networkDecl m line with
      | .error e => .error e
      | .ok m2 => .ok (m2, none)
  else
    let m1 := {m with
      items :=
      dinsert (Key.s "lines") (Value.vList (getLines m ++ [pyStrip line])) m.items}
    if pyStarts (pyStrip line) "inet6" then
      match pyIndex (pySplitWS (pyStrip line)) 1 with
      | .error e => .error e
      | .ok p => .ok ({m1 with items := dinsert (Key.s "inet6") (Value.vStr p) m1.items}, none)
    else if pyStarts (pyStrip line) "inet" then
      match pyIndex (pySplitWS (pyStrip line)) 1 with
      | .error e => .error e
      | .ok p => .ok ({m1 with items := dinsert (Key.s "inet") (Value.vStr p) m1.items}, none)
    else .ok (m1, none)

/-- Models `IPAddress.add_line` (lines 250-253). -/
def ipAdd (m : Module) (line : String) : Except PyError (Module × Option Module) :=
  if pyStrip line = "" then .ok (m, none)
  else .ok ({m with items := dinsert (Key.s "ip") (Value.vStr (pyStrip line)) m.items}, none)

/-- The glyph scrubbing in `Disks.add_line` line 284 (the source
replaces `├` twice). -/
def disksGlyphFix (s : String) : String :=
  pyReplace (pyReplace (pyReplace (pyReplace (pyStrip s) "├" "") "├" "") "└" "") "─" " "

/-- Models `Disks.using` (lines 258-267). -/
def disksUsing (i : Nat) : Option String :=
  match i with
  | 0 => some "name"
  | 3 => some "size"
  | 4 => some "ro"
  | 5 => some "fstype"
  | 6 => some "mountpoint"
  | 7 => some "uuid"
  | _ => none

/-- The column ingestion of `Disks.add_line` (lines 280-285). -/
def disksBody (m : Module) (line : String) : Module :=
  {m with
      items :=
        (pySplitWS line).enum.foldl
          (fun its p =>
            match disksUsing p.1 with
            | some k => dinsert (Key.s k) (Value.vStr (disksGlyphFix p.2)) its
            | none => its)
          m.items}

/-- Models `Disks.add_line` (lines 269-285). -/
def disksAdd (m : Module) (line : String) : Except PyError (Module × Option Module) :=
  if pyStrip line = "" then .ok (m, none)
  else if pyStarts (pyStrip line) "NAME" then .ok (m, none)
  else if hasKeyS m "name" then .ok (m, some (disksBody (freshModule .disks) line))
  else .ok (disksBody m line, none)

/-- Models `Mount.add_line` (lines 296-300): first whitespace token maps to the
full raw line. -/
def mountAdd (m : Module) (line : String) : Except PyError (Module × Option Module) :=
  if pyStrip line = "" then .ok (m, none)
  else
    match pyIndex (pySplitWS line) 0 with
    | .error e => .error e
    | .ok k => .ok ({m with items := dinsert (Key.s k) (Value.vStr line) m.items}, none)

/-- Models `ZFSPools.using` (lines 305-317). -/
def zfsUsing (i : Nat) : Option String :=
  match i with
  | 0 => some "name"
  | 1 => some "size"
  | 2 => some "alloc"
  | 3 => some "free"
  | 4 => some "ckpoint"
  | 5 => some "expandsz"
  | 6 => some "frag"
  | 7 => some "cap"
  | 8 => some "dedup"
  | 9 => some "health"
  | 10 => some "altroot"
  | _ => none

/-- The data-row ingestion of `ZFSPools.add_line` (lines 333-339). -/
def zfsBody (m : Module) (parts : List String) : Module :=
  {m with
      items :=
        parts.enum.foldl
          (fun its p =>
            match zfsUsing p.1 with
            | some k =>
              let v := pyStrip p.2
              dinsert (Key.s k) (Value.vStr (if v = "-" then "" else v)) its
            | none => its)
          m.items}

/-- Models `ZFSPools.add_line` (lines 319-339). -/
def zfsAdd (m : Module) (line : String) : Except PyError (Module × Option Module) :=
  if pyStrip line = "" then .ok (m, none)
  else if pyStarts (pyStrip line) "NAME" then .ok (m, none)
  else
    let parts := pySplitWS line
    if parts.length = 11 ∧ pyContains (parts.headD "") "pool" then
      if hasKeyS m "name" then .ok (m, some (zfsBody (freshModule .zfspools) parts))
      else .ok (zfsBody m parts, none)
    else .ok (m, none)

/-- Models `RCStatus.add_line` (lines 357-364). -/
def rcAdd (m : Module) (line : String) : Except PyError (Module × Option Module) :=
  if pyStrip line = "" then .ok (m, none)
  else
    let parts := pySplitWS (pyStrip line)
    if pyStarts line "Runlevel" then
      match pyIndex parts 1 with
      | .error e => .error e
      | .ok p1 =>
        .ok ({m with
      items :=
          dinsert (Key.s (pyUpper (pyStrip p1))) (Value.vStr "") m.items}, none)
    else
      match pyIndex parts 0 with
      | .error e => .error e
      | .ok p0 =>
        match pyIndex parts 2 with
        | .error e => .error e
        | .ok p2 =>
          .ok ({m with
      items :=
            dinsert (Key.s (pyStrip p0)) (Value.vStr (pyStrip p2)) m.items}, none)

/-- Models `SmartStatus`/`USB`/`Process.add_line`: the body is only the blank
check, so every line leaves the record unchanged. -/
def trivialAdd (m : Module) (_line : String) : Except PyError (Module × Option Module) :=
  .ok (m, none)

/-- Models `UpgradablePackages.add_line` (lines 380-390). -/
def upAdd (m : Module) (line : String) : Except PyError (Module × Option Module) :=
  if pyStrip line = "" then .ok (m, none)
  else if pyStarts line "UPGRADABLE PACKAGES" then .ok (m, none)
  else if pyStarts line "-" then .ok (m, none)
  else if pyStarts line "Installed" then .ok (m, none)
  else .ok ({m with extra := m.extra ++ [pyStrip line]}, none)

/-- Models `Users.add_line` (lines 409-412) and `Groups.add_line`
(lines 425-428): accumulate the stripped line in the private list. -/
def accumAdd (m : Module) (line : String) : Except PyError (Module × Option Module) :=
  if pyStrip line = "" then .ok (m, none)
  else .ok ({m with extra := m.extra ++ [pyStrip line]}, none)

/-- Method dispatch for `add_line`. -/
def addLine (m : Module) (line : String) : Except PyError (Module × Option Module) :=
  match m.kind with
  | .ignore => baseAdd m line
  | .unknown => baseAdd m line
  | .header => headerAdd m line
  | .cpu => cpuAdd m line
  | .memory => memoryAdd m line
  | .network => networkAdd m line
  | .ipaddress => ipAdd m line
  | .disks => disksAdd m line
  | .mount => mountAdd m line
  | .zfspools => zfsAdd m line
  | .smartstatus => trivialAdd m line
  | .rcstatus => rcAdd m line
  | .usb => trivialAdd m line
  | .upgradablepackages => upAdd m line
  | .process => trivialAdd m line
  | .users => accumAdd m line
  | .groups => accumAdd m line

/-! ## Finalization and the parse driver -/

def natDigitsGo : Nat → Nat → List Char → List Char
  | 0, _, acc => acc
  | fuel + 1, n, acc =>
    let d := Char.ofNat (48 + n % 10)
    if n < 10 then d :: acc else natDigitsGo fuel (n / 10) (d :: acc)

/-- Python `str(n)` for a natural number. -/
def natToStr (n : Nat) : String := ⟨natDigitsGo (n + 1) n []⟩

/-- Models `for index, user in enumerate(...): self.items[index] = user` —
integer-keyed insertion in order. -/
def indexedInsert (its : List (Key × Value)) (ps : List (Nat × String)) : List (Key × Value) :=
  ps.foldl (fun acc p => dinsert (Key.n p.1) (Value.vStr p.2) acc) its

/-- Method dispatch for `finalise`: a no-op except for
`UpgradablePackages` (lines 392-393), `Users` (lines 414-416) and
`Groups` (lines 430-432). -/
def Module.finalise (m : Module) : Module :=
  match m.kind with
  | .upgradablepackages =>
    {m with
        items :=
          dinsert (Key.s "count")
            (Value.vStr (if m.extra.length = 0 then "" else natToStr m.extra.length))
            m.items}
  | .users => {m with items := indexedInsert m.items m.extra.enum}
  | .groups => {m with items := indexedInsert m.items m.extra.enum}
  | _ => m

/-- Models `AlpLogParser.finalise_module` (lines 464-467): finalize and append,
unless the module is an `Ignore`. -/
def finaliseModule (mods : List Module) (m : Module) : List Module :=
  if m.kind = Kind.ignore then mods else mods ++ [m.finalise]

/-- One iteration of the `AlpLogParser.__init__` line loop
(lines 447-461).  On a detected header the previous module is finalized
first, and the new module inherits `modules[0].timestamp` when the list
is non-empty; on a split signal `modules[0]` is indexed without a guard
(an `IndexError` if the list were empty). -/
def stepLine (st : Option Module × List Module) (line : String) :
    Except PyError (Option Module × List Module) :=
  match detectModule line with
  | some newM =>
    let mods2 := match st.1 with
      | some c => finaliseModule st.2 c
      | none => st.2
    match mods2 with
    | [] => .ok (some newM, mods2)
    | m0 :: _ => .ok (some {newM with timestamp := m0.timestamp}, mods2)
  | none =>
    match st.1 with
    | none => .ok (none, st.2)
    | some c =>
      match addLine c line with
      | .error e => .error e
      | .ok (c2, none) => .ok (some c2, st.2)
      | .ok (c2, some n) =>
        let mods2 := finaliseModule st.2 c2
        match mods2 with
        | [] => .error (.indexError "list index out of range")
        | m0 :: _ => .ok (some {n with timestamp := m0.timestamp}, mods2)

/-- The driver loop from a given state: fold the lines, then run the
unconditional trailing `finalise_module(current_module)` (line 462),
which raises `AttributeError` when no module was ever detected
(`current_module` is still `None`). -/
def parseFrom (st : Option Module × List Module) (lines : List String) :
    Except PyError (List Module) :=
  match lines.foldlM stepLine st with
  | .error e => .error e
  | .ok (none, _) => .error (.attributeError "NoneType object has no attribute finalise")
  | .ok (some c, mods) => .ok (finaliseModule mods c)

/-- Models `AlpLogParser.__init__` (lines 441-462): parse the file's lines into
the finalized module sequence `self.modules`. -/
def parse (lines : List String) : Except PyError (List Module) :=
  parseFrom (none, []) lines

/-! ## Record-level ingestion helpers for the statements -/

/-- Feed one line to a record, keeping the (possibly updated) record and
discarding any split signal. -/
def ingest1 (m : Module) (line : String) : Except PyError Module :=
  match addLine m line with
  | .error e => .error e
  | .ok p => .ok p.1

/-- Build a record of kind `k` by feeding it `ls` line by line. -/
def ingestRecord (k : Kind) (ls : List String) : Except PyError Module :=
  ls.foldlM ingest1 (freshModule k)

instance {e a : Type} [DecidableEq e] [DecidableEq a] : DecidableEq (Except e a) := fun x y =>
  match x, y with
  | .ok u, .ok v =>
    if h : u = v then .isTrue (by rw [h]) else .isFalse (by intro hc; cases hc; exact h rfl)
  | .error u, .error v =>
    if h : u = v then .isTrue (by rw [h]) else .isFalse (by intro hc; cases hc; exact h rfl)
  | .ok _, .error _ => .isFalse (by intro hc; cases hc)
  | .error _, .ok _ => .isFalse (by intro hc; cases hc)

/-! ## Derived definitions used by the claim statements -/

/-- A record of kind `k` whose only state is its `'lines'` bucket — the
shape every `Ignore`/`Unknown` record has. -/
def linesOnly (k : Kind) (acc : List String) : Module :=
  ⟨k, none, [(Key.s "lines", Value.vList acc)], []⟩

/-- The invariant maintained by the driver loop: whenever the head of
the accumulated output list has a set timestamp `T`, every accumulated
record and the current module carry that same timestamp. -/
def TsInv (st : Option Module × List Module) : Prop :=
  ∀ (T : PyDateTime) (h0 : Module), st.2.head? = some h0 → h0.timestamp = some T →
    (∀ m ∈ st.2, m.timestamp = some T) ∧ ∀ c, st.1 = some c → c.timestamp = some T

/-- C2 counterexample input: a CPU section precedes the Header section,
so `modules[0]` is the CPU record (timestamp `None`) and the CPU record
created after the Header never receives the Header's resolvable
timestamp. -/
def tsCexInput : List String :=
  ["# CPU", "processor: 0", "STATUS INFORMATION", "date: 2020-01-02",
   "time: 03:04:05", "# CPU", "processor: 1"]

/-- The timestamp the Header derives from `2020-01-02` / `03:04:05`
(month forced to 1 by the `%Y-%M-%d` format string of the source). -/
def tsT : PyDateTime := ⟨⟨2020, 1, 2⟩, ⟨3, 4, 5⟩⟩

/-- C2 amended, input for the witness. -/
def tsInput : List String :=
  ["STATUS INFORMATION", "date: 2020-01-02", "time: 03:04:05", "# CPU", "processor: 0"]

def tsMods : List Module := (parse tsInput).toOption.getD []

def tsHead : Module := tsMods.headD (freshModule Kind.unknown)

/-- True when the computation succeeded. -/
def exOk {α : Type} : Except PyError α → Bool
  | .ok _ => true
  | .error _ => false

/-- The key of a CPU/Header line, as `CPU.add_line` computes it. -/
def cpuKeyOf (line : String) : String := (splitFirstColon (pyStrip line)).1

/-- One repeated-processor block of a CPU section: its `processor: <i>`
line, the integer on it, and the block's remaining lines. -/
structure CpuBlock where
  procLine : String
  procVal : Int
  rest : List String

def blockLines (b : CpuBlock) : List String := b.procLine :: b.rest

/-- The block's first line is a well-formed `processor: <i>` line that
is not itself a section header. -/
abbrev procLineOk (b : CpuBlock) : Prop :=
  detectModule b.procLine = none ∧ cpuKeyOf b.procLine = "processor" ∧
  pyInt (splitFirstColon (pyStrip b.procLine)).2 = .ok b.procVal

/-- A block body line: not a section header, and either blank or a
non-`processor` line whose CPU coercion succeeds. -/
abbrev restLineOk (r : String) : Prop :=
  detectModule r = none ∧
  (pyStrip r = "" ∨ (cpuKeyOf r ≠ "processor" ∧ exOk (cpuValue r) = true))

abbrev BlockOk (b : CpuBlock) : Prop := procLineOk b ∧ ∀ r ∈ b.rest, restLineOk r

/-- The shape the current CPU record keeps throughout a block: CPU
kind, unset timestamp, and its own `processor` value. -/
def GoodCur (c : Module) (i : Int) : Prop :=
  c.kind = Kind.cpu ∧ c.timestamp = none ∧
  lookupItem c (Key.s "processor") = some (Value.vInt i)

def ModsNone (mods : List Module) : Prop := ∀ m ∈ mods, m.timestamp = none

/-- C1 amended, witness blocks: two processors with distinct extra
fields. -/
def wBlocks : List CpuBlock :=
  [⟨"processor: 0", 0, ["model name: AMD EPYC", "cpu MHz: 1200.0"]⟩,
   ⟨"processor: 1", 1, ["bogomips: 2400.5"]⟩]

/-! ## Basic lemmas about the embedded operations -/

theorem lookupKV_dinsert_self (k : Key) (v : Value) (its : List (Key × Value)) :
    lookupKV k (dinsert k v its) = some v := by
  induction its with
  | nil => simp [dinsert, lookupKV]
  | cons p rest ih =>
    by_cases h : p.1 = k
    · simp [dinsert, h, lookupKV]
    · simp [dinsert, h, lookupKV, ih]

theorem lookupKV_dinsert_ne (k k' : Key) (v : Value) (its : List (Key × Value))
    (h : k' ≠ k) : lookupKV k' (dinsert k v its) = lookupKV k' its := by
  induction its with
  | nil => simp [dinsert, lookupKV, Ne.symm h]
  | cons p rest ih =>
    obtain ⟨pk, pv⟩ := p
    by_cases hp : pk = k
    · subst hp
      simp [dinsert, lookupKV, Ne.symm h]
    · simp [dinsert, hp, lookupKV, ih]

theorem dinsert_eq_append (k : Key) (v : Value) (its : List (Key × Value))
    (h : lookupKV k its = none) : dinsert k v its = its ++ [(k, v)] := by
  induction its with
  | nil => simp [dinsert]
  | cons p rest ih =>
    by_cases hp : p.1 = k
    · simp [lookupKV, hp] at h
    · simp [lookupKV, hp] at h
      simp [dinsert, hp, ih h]

theorem lookupKV_append_none (k : Key) (a b : List (Key × Value))
    (h : lookupKV k a = none) : lookupKV k (a ++ b) = lookupKV k b := by
  induction a with
  | nil => simp
  | cons p rest ih =>
    obtain ⟨pk, pv⟩ := p
    by_cases hp : pk = k
    · simp [lookupKV, hp] at h
    · simp [lookupKV, hp] at h ⊢
      exact ih h

theorem finalise_kind (m : Module) : m.finalise.kind = m.kind := by
  obtain ⟨k, ts, its, ex⟩ := m
  cases k <;> rfl

theorem finalise_timestamp (m : Module) : m.finalise.timestamp = m.timestamp := by
  obtain ⟨k, ts, its, ex⟩ := m
  cases k <;> rfl

theorem headerDerive_items (m : Module) : (headerDerive m).items = m.items := by
  unfold headerDerive
  split
  · split <;> rfl
  · rfl

theorem headerDerive_kind (m : Module) : (headerDerive m).kind = m.kind := by
  unfold headerDerive
  split
  · split <;> rfl
  · rfl

/-! ## Claim C9 — blank lines are no-ops for every kind -/

/-- C9: for every section kind, ingesting a blank or whitespace-only
line leaves the record (fields, raw-line backlog and private
accumulators alike) unchanged and returns no split signal. -/
theorem blank_line_is_noop (m : Module) (line : String) (h : pyStrip line = "") :
    addLine m line = .ok (m, none) := by
  obtain ⟨k, ts, its, ex⟩ := m
  cases k <;>
    simp [addLine, baseAdd, headerAdd, cpuAdd, memoryAdd, networkAdd, ipAdd,
      disksAdd, mountAdd, zfsAdd, trivialAdd, rcAdd, upAdd, accumAdd, h]

/-- C9 witness: a whitespace-only line fed to a CPU record. -/
theorem blank_line_is_noop_witness :
    pyStrip " \t " = "" ∧
    addLine (freshModule Kind.cpu) " \t " = .ok (freshModule Kind.cpu, none) :=
  ⟨by decide, blank_line_is_noop (freshModule Kind.cpu) " \t " (by decide)⟩

/-! ## Claim C4 — header-less input -/

/-- C4: contrary to the claim, an input in which no section header or
sentinel is ever detected does *not* parse to the empty sequence: the
trailing `finalise_module(current_module)` call at line 462 runs
unconditionally, and with `current_module` still `None` it evaluates
`None.finalise()`, raising `AttributeError`.  Shown here on the empty
file and on a file with only undetected lines. -/
theorem headerless_input_raises :
    parse [] = .error (.attributeError "NoneType object has no attribute finalise") ∧
    parse ["hello", "world"] =
      .error (.attributeError "NoneType object has no attribute finalise") :=
  ⟨rfl, rfl⟩

/-! ## Claim C3 — Memory and unrecognized lines -/

/-- C3 counterexample: a non-blank `Memory` line starting with neither
`Mem` nor `Swap` does not signal a data-format error; the parse
succeeds and the record's `items` are left untouched. -/
theorem memory_unrecognized_line_no_error :
    (parse ["# MEMORY", "total used free"]).map (List.map Module.items) =
      .ok [[(Key.s "lines", Value.vList [])]] := by decide

/-- C3 amended: a non-blank line starting with neither `Mem` nor `Swap`
is silently skipped by `Memory.add_line` (the `else: pass` branch at
line 194): the record is unchanged and no error or signal is raised. -/
theorem memory_unrecognized_line_skipped (m : Module) (hm : m.kind = Kind.memory)
    (line : String) (hnb : pyStrip line ≠ "")
    (hMem : pyStarts line "Mem" = false) (hSwap : pyStarts line "Swap" = false) :
    addLine m line = .ok (m, none) := by
  obtain ⟨k, ts, its, ex⟩ := m
  cases hm
  simp [addLine, memoryAdd, hnb, hMem, hSwap]

/-- C3 amended, witness: the `free` column-header line. -/
theorem memory_unrecognized_line_skipped_witness :
    pyStrip "total used free" ≠ "" ∧
    pyStarts "total used free" "Mem" = false ∧
    pyStarts "total used free" "Swap" = false ∧
    addLine (freshModule Kind.memory) "total used free" =
      .ok (freshModule Kind.memory, none) :=
  ⟨by decide, by decide, by decide,
    memory_unrecognized_line_skipped (freshModule Kind.memory) rfl "total used free"
      (by decide) (by decide) (by decide)⟩

/-! ## Claim C6 — the `Kernel version` value -/

theorem replGo_hash : ∀ (fuel : Nat) (l : List Char), l.length ≤ fuel →
    replGo fuel l ['#'] [] = l.filter (fun c => c ≠ '#') := by
  intro fuel
  induction fuel with
  | zero =>
    intro l hl
    have hnil : l = [] := List.eq_nil_of_length_eq_zero (Nat.le_zero.1 hl)
    subst hnil
    rfl
  | succ k ih =>
    intro l hl
    cases l with
    | nil => rfl
    | cons c rest =>
      have hrest : rest.length ≤ k := by
        simp [List.length_cons] at hl
        omega
      by_cases hc : c = '#'
      · subst hc
        have hd : dropPfx ['#'] ('#' :: rest) = some rest := by simp [dropPfx]
        simp [replGo, hd, ih rest hrest]
      · have hd : dropPfx ['#'] (c :: rest) = none := by
          simp [dropPfx, Ne.symm hc]
        simp [replGo, hd, hc, ih rest hrest]

/-- Shows that `data.replace('#', '')` removes every `#` character. -/
theorem pyReplace_hash (s : String) :
    pyReplace s "#" "" = ⟨s.data.filter (fun c => c ≠ '#')⟩ := by
  have h1 : ("#" : String).data = ['#'] := rfl
  have h2 : ("" : String).data = [] := rfl
  unfold pyReplace
  rw [h1, h2]
  rw [if_neg (by decide)]
  exact congrArg String.mk (replGo_hash s.data.length s.data (Nat.le_refl _))

theorem headerValue_kernel_version (data : String) :
    headerValue "Kernel version" data = .ok (some (Value.vStr (pyReplace data "#" ""))) := by
  unfold headerValue
  rw [if_neg (by decide), if_neg (by decide), if_pos rfl]

/-- C6 counterexample: in `Kernel version: #1 SMP #2` the trailing `#2`
loses its `#` as well — `data.replace('#', '')` is not limited to a
leading marker. -/
theorem kernel_version_hash_cex :
    (addLine (freshModule Kind.header) "Kernel version: #1 SMP #2").map
        (fun p => lookupItem p.1 (Key.s "Kernel version")) =
      .ok (some (Value.vStr "1 SMP 2")) ∧
    (Value.vStr "1 SMP 2" : Value) ≠ Value.vStr "1 SMP #2" :=
  ⟨by decide, by decide⟩

/-- C6 amended: for a Header line whose key is `Kernel version`, the
stored value is the parsed value with **every** `#` character removed,
not only a leading marker. -/
theorem kernel_version_strips_every_hash (m : Module) (hm : m.kind = Kind.header)
    (line : String) (hk : (splitFirstColon (pyStrip line)).1 = "Kernel version") :
    ∃ m2, addLine m line = .ok (m2, none) ∧
      lookupItem m2 (Key.s "Kernel version") =
        some (Value.vStr
          ⟨((splitFirstColon (pyStrip line)).2).data.filter (fun c => c ≠ '#')⟩) := by
  have hnb : pyStrip line ≠ "" := by
    intro hb
    rw [hb] at hk
    exact absurd hk (by decide)
  obtain ⟨k, ts, its, ex⟩ := m
  cases hm
  refine ⟨headerDerive (headerStore ⟨Kind.header, ts, its, ex⟩ "Kernel version"
    (some (Value.vStr (pyReplace (splitFirstColon (pyStrip line)).2 "#" "")))), ?_, ?_⟩
  · show headerAdd _ _ = _
    unfold headerAdd
    rw [if_neg hnb, hk, headerValue_kernel_version]
  · show lookupKV _ (headerDerive _).items = _
    rw [headerDerive_items]
    show lookupKV _ (dinsert (Key.s "Kernel version") _ _) = _
    rw [lookupKV_dinsert_self, pyReplace_hash]

/-- C6 amended, witness. -/
theorem kernel_version_strips_every_hash_witness :
    ∃ m2, addLine (freshModule Kind.header) "Kernel version: #1-Alpine SMP #2" =
        .ok (m2, none) ∧
      lookupItem m2 (Key.s "Kernel version") =
        some (Value.vStr
          ⟨((splitFirstColon (pyStrip "Kernel version: #1-Alpine SMP #2")).2).data.filter
            (fun c => c ≠ '#')⟩) :=
  kernel_version_strips_every_hash (freshModule Kind.header) rfl
    "Kernel version: #1-Alpine SMP #2" (by decide)

/-! ## Claim C5 — Users / Groups finalization -/

theorem addLine_accum (m : Module) (hm : m.kind = Kind.users ∨ m.kind = Kind.groups)
    (line : String) (h : pyStrip line ≠ "") :
    addLine m line = .ok ({m with extra := m.extra ++ [pyStrip line]}, none) := by
  obtain ⟨mk, ts, its, ex⟩ := m
  rcases hm with hm | hm <;> cases hm <;> simp [addLine, accumAdd, h]

theorem accum_ingest : ∀ (ls : List String) (m : Module),
    (m.kind = Kind.users ∨ m.kind = Kind.groups) → (∀ l ∈ ls, pyStrip l ≠ "") →
    ls.foldlM ingest1 m = .ok {m with extra := m.extra ++ ls.map pyStrip} := by
  intro ls
  induction ls with
  | nil =>
    intro m _ _
    simp only [List.map_nil, List.append_nil, List.foldlM_nil]
    rfl
  | cons l ls ih =>
    intro m hm h
    rw [List.foldlM_cons]
    have h1 : ingest1 m l = .ok {m with extra := m.extra ++ [pyStrip l]} := by
      unfold ingest1
      rw [addLine_accum m hm l (h l (List.mem_cons_self l ls))]
    rw [h1]
    have h2 := ih {m with extra := m.extra ++ [pyStrip l]} hm
      (fun l' hl' => h l' (List.mem_cons_of_mem _ hl'))
    exact h2.trans (by simp)

theorem indexedInsert_eq_append : ∀ (ps : List (Nat × String)) (its : List (Key × Value)),
    (∀ p ∈ ps, lookupKV (Key.n p.1) its = none) → (ps.map Prod.fst).Nodup →
    indexedInsert its ps = its ++ ps.map (fun p => (Key.n p.1, Value.vStr p.2)) := by
  intro ps
  induction ps with
  | nil =>
    intro its _ _
    simp [indexedInsert]
  | cons p ps ih =>
    intro its habs hnd
    obtain ⟨i, s⟩ := p
    rw [List.map_cons, List.nodup_cons] at hnd
    obtain ⟨hni, hnd'⟩ := hnd
    show List.foldl _ _ (_ :: _) = _
    rw [List.foldl_cons]
    rw [show dinsert (Key.n (i, s).1) (Value.vStr (i, s).2) its =
        its ++ [(Key.n i, Value.vStr s)] from
      dinsert_eq_append _ _ _ (habs (i, s) (List.mem_cons_self _ _))]
    have habs' : ∀ q ∈ ps, lookupKV (Key.n q.1) (its ++ [(Key.n i, Value.vStr s)]) = none := by
      intro q hq
      have hne : q.1 ≠ i := by
        intro hqi
        have hmem : q.1 ∈ ps.map Prod.fst := List.mem_map_of_mem Prod.fst hq
        rw [hqi] at hmem
        exact hni hmem
      rw [lookupKV_append_none _ _ _ (habs q (List.mem_cons_of_mem _ hq))]
      simp [lookupKV, Ne.symm hne]
    have hstep := ih (its ++ [(Key.n i, Value.vStr s)]) habs' hnd'
    show indexedInsert _ ps = _
    rw [hstep]
    simp

/-- C5 counterexample: finalizing a `Users` record built from the single
line `"  alice  "` yields the single field `(0 : int) ↦ "alice"` — an
integer key (not the string `"0"`) with the *stripped* line text (not
the verbatim input). -/
theorem users_finalise_cex :
    (ingestRecord Kind.users ["  alice  "]).map (fun m => fields m.finalise) =
      .ok [(Key.n 0, Value.vStr "alice")] ∧
    ((Key.n 0, Value.vStr "alice") : Key × Value) ≠ (Key.s "0", Value.vStr "  alice  ") :=
  ⟨by decide, by decide⟩

/-- C5 amended: a `Users` or `Groups` record that ingested `n` non-blank
lines finalizes to exactly `n` fields, keyed by the Python *integer*
indexes `0 … n-1` in order, each mapping to the *stripped* text of its
line (`add_line` stores `line.strip()`). -/
theorem users_groups_fields (k : Kind) (hk : k = Kind.users ∨ k = Kind.groups)
    (ls : List String) (hnb : ∀ l ∈ ls, pyStrip l ≠ "") :
    ∃ m, ingestRecord k ls = .ok m ∧
      fields m.finalise =
        ls.enum.map (fun p => (Key.n p.1, Value.vStr (pyStrip p.2))) := by
  have hkind : (freshModule k).kind = Kind.users ∨ (freshModule k).kind = Kind.groups := by
    rcases hk with hk | hk <;> subst hk <;> simp [freshModule]
  have hing : ingestRecord k ls =
      .ok {freshModule k with extra := (freshModule k).extra ++ ls.map pyStrip} :=
    accum_ingest ls (freshModule k) hkind hnb
  refine ⟨_, hing, ?_⟩
  have habs : ∀ p ∈ (ls.map pyStrip).enum,
      lookupKV (Key.n p.1) [(Key.s "lines", Value.vList [])] = none := by
    intro p _
    simp [lookupKV]
  have hnd : (((ls.map pyStrip).enum).map Prod.fst).Nodup := by
    rw [List.enum_map_fst]
    exact List.nodup_range _
  have hfil : fields ({freshModule k with
      extra := (freshModule k).extra ++ ls.map pyStrip} : Module).finalise =
      List.filter (fun kv => kv.1 ≠ Key.s "lines")
        (indexedInsert [(Key.s "lines", Value.vList [])] ((ls.map pyStrip).enum)) := by
    rcases hk with hk | hk <;> subst hk <;> rfl
  rw [hfil, indexedInsert_eq_append _ _ habs hnd]
  rw [List.filter_append]
  rw [show List.filter (fun kv => kv.1 ≠ Key.s "lines")
      [(Key.s "lines", Value.vList [])] = [] from rfl]
  rw [List.nil_append]
  rw [List.filter_eq_self.2 (by
    intro a ha
    rcases List.mem_map.1 ha with ⟨q, _, hqa⟩
    rw [← hqa]
    simp)]
  rw [List.enum_map, List.map_map]
  rfl

/-! ## Claim C7 — raw-line round-trip -/

/-- C7 counterexample: a `Network` record built from an interface
declaration and an indented `inet` line has non-empty structured fields
and raw-line backlog `["inet 192.168.1.10/24"]`; re-ingesting that
backlog into a fresh `Network` record does not reproduce the fields —
it raises `ValueError`, because the backlog line is unindented and is
parsed as an interface declaration (`int(parts[0])` on `inet 192…`). -/
theorem network_roundtrip_cex :
    (ingestRecord Kind.network ["2: eth0: mtu 1500", "    inet 192.168.1.10/24"]).map
        (fun m => (rawLines m.finalise, fields m.finalise)) =
      .ok (["inet 192.168.1.10/24"],
        [(Key.s "index", Value.vInt 2), (Key.s "name", Value.vStr "eth0"),
         (Key.s "name_other", Value.vStr "mtu 1500"),
         (Key.s "inet", Value.vStr "192.168.1.10/24")]) ∧
    ingestRecord Kind.network ["inet 192.168.1.10/24"] =
      .error (.valueError "invalid literal for int") :=
  ⟨by decide, by decide⟩


theorem addLine_base (k : Kind) (hk : k = Kind.ignore ∨ k = Kind.unknown)
    (acc : List String) (line : String) :
    addLine (linesOnly k acc) line =
      .ok (linesOnly k (acc ++ if pyStrip line = "" then [] else [line]), none) := by
  rcases hk with hk | hk <;> subst hk <;>
    by_cases h : pyStrip line = "" <;>
      simp [addLine, baseAdd, linesOnly, h, getLines, lookupItem, lookupKV, dinsert]

theorem base_ingest (k : Kind) (hk : k = Kind.ignore ∨ k = Kind.unknown) :
    ∀ (ls acc : List String),
      List.foldlM ingest1 (linesOnly k acc) ls =
        .ok (linesOnly k (acc ++ ls.filter fun l => pyStrip l ≠ "")) := by
  intro ls
  induction ls with
  | nil =>
    intro acc
    simp only [List.filter_nil, List.append_nil, List.foldlM_nil]
    rfl
  | cons l ls ih =>
    intro acc
    rw [List.foldlM_cons]
    have h1 : ingest1 (linesOnly k acc) l =
        .ok (linesOnly k (acc ++ if pyStrip l = "" then [] else [l])) := by
      unfold ingest1
      rw [addLine_base k hk]
    rw [h1]
    refine (ih (acc ++ if pyStrip l = "" then [] else [l])).trans ?_
    by_cases h : pyStrip l = "" <;>
      simp [h, List.filter_cons, List.append_assoc, linesOnly]

/-- C7 amended: for the raw-line accumulator kinds `Ignore` and
`Unknown` — the kinds whose entire ingested content is the raw-line
backlog — re-ingesting a finalized record's raw lines into a fresh
record of the same kind and finalizing reproduces identical `items`;
the structured kinds do not round-trip in general (see the `Network`
counterexample). -/
theorem raw_lines_roundtrip (k : Kind) (hk : k = Kind.ignore ∨ k = Kind.unknown)
    (ls : List String) :
    ∃ m m2, ingestRecord k ls = .ok m ∧
      ingestRecord k (rawLines m.finalise) = .ok m2 ∧
      m2.finalise.items = m.finalise.items := by
  have hfin : ∀ acc : List String, (linesOnly k acc).finalise = linesOnly k acc := by
    intro acc
    rcases hk with hk | hk <;> subst hk <;> rfl
  have hidem : (ls.filter fun l => pyStrip l ≠ "").filter (fun l => pyStrip l ≠ "") =
      ls.filter fun l => pyStrip l ≠ "" :=
    List.filter_eq_self.2 (fun a ha => (List.mem_filter.1 ha).2)
  have hroundtrip :
      ingestRecord k
          (rawLines ((linesOnly k ([] ++ ls.filter fun l => pyStrip l ≠ "")).finalise)) =
        .ok (linesOnly k ([] ++ ls.filter fun l => pyStrip l ≠ "")) := by
    rw [hfin]
    exact (base_ingest k hk ([] ++ ls.filter fun l => pyStrip l ≠ "") []).trans
      (by simp [hidem])
  exact ⟨_, _, base_ingest k hk ls [], hroundtrip, rfl⟩

/-- C7 amended, witness. -/
theorem raw_lines_roundtrip_witness :
    ∃ m m2, ingestRecord Kind.ignore ["access info", "  ", "more info"] = .ok m ∧
      ingestRecord Kind.ignore (rawLines m.finalise) = .ok m2 ∧
      m2.finalise.items = m.finalise.items :=
  raw_lines_roundtrip Kind.ignore (Or.inl rfl) ["access info", "  ", "more info"]

/-! ## The driver-loop invariant machinery -/

theorem foldlM_stepLine_inv (P : Option Module × List Module → Prop)
    (hstep : ∀ st l st', P st → stepLine st l = .ok st' → P st') :
    ∀ (lines : List String) (st st' : Option Module × List Module),
      P st → lines.foldlM stepLine st = .ok st' → P st' := by
  intro lines
  induction lines with
  | nil =>
    intro st st' h hf
    rw [List.foldlM_nil] at hf
    cases hf
    exact h
  | cons l ls ih =>
    intro st st' h hf
    rw [List.foldlM_cons] at hf
    cases hst : stepLine st l with
    | error e =>
      rw [hst] at hf
      cases hf
    | ok st1 =>
      rw [hst] at hf
      exact ih st1 st' (hstep st l st1 h hst) hf

/-- Anatomy of one driver step, for invariant proofs: every successful
step leaves the module list unchanged, or extends it by finalizing the
current module through `finaliseModule`. -/
theorem stepLine_mods (st : Option Module × List Module) (l : String)
    (st' : Option Module × List Module) (h : stepLine st l = .ok st') :
    st'.2 = st.2 ∨ ∃ c, st'.2 = finaliseModule st.2 c := by
  unfold stepLine at h
  cases hdet : detectModule l with
  | some newM =>
    rw [hdet] at h
    rcases st with ⟨cur, mods⟩
    cases cur with
    | none =>
      simp only at h
      cases hm : mods with
      | nil => rw [hm] at h; cases h; left; rfl
      | cons m0 rest => rw [hm] at h; cases h; left; rfl
    | some c =>
      simp only at h
      cases hm : finaliseModule mods c with
      | nil => rw [hm] at h; cases h; right; exact ⟨c, hm.symm⟩
      | cons m0 rest => rw [hm] at h; cases h; right; exact ⟨c, hm.symm⟩
  | none =>
    rw [hdet] at h
    rcases st with ⟨cur, mods⟩
    cases cur with
    | none =>
      cases h
      left
      rfl
    | some c =>
      simp only at h
      cases hadd : addLine c l with
      | error e => rw [hadd] at h; cases h
      | ok p =>
        rw [hadd] at h
        obtain ⟨c2, sig⟩ := p
        cases sig with
        | none => cases h; left; rfl
        | some n =>
          simp only at h
          cases hm : finaliseModule mods c2 with
          | nil => rw [hm] at h; cases h
          | cons m0 rest => rw [hm] at h; cases h; right; exact ⟨c2, hm.symm⟩

theorem finaliseModule_mem (mods : List Module) (c m : Module)
    (hm : m ∈ finaliseModule mods c) : m ∈ mods ∨ m = c.finalise := by
  unfold finaliseModule at hm
  split at hm
  · exact Or.inl hm
  · rcases List.mem_append.1 hm with h1 | h2
    · exact Or.inl h1
    · simp at h2
      exact Or.inr h2

/-! ## Claim C8 — no Ignore record in the output -/

theorem finaliseModule_no_ignore (mods : List Module) (c : Module)
    (h : ∀ m ∈ mods, m.kind ≠ Kind.ignore) :
    ∀ m ∈ finaliseModule mods c, m.kind ≠ Kind.ignore := by
  intro m hm
  rcases finaliseModule_mem mods c m hm with h1 | h2
  · exact h m h1
  · have : ¬ c.kind = Kind.ignore := by
      by_contra hc
      unfold finaliseModule at hm
      rw [if_pos hc] at hm
      exact (h m hm) (by
        subst h2
        rw [finalise_kind]
        exact hc)
    subst h2
    rw [finalise_kind]
    exact this

/-- C8: for every input whose parse succeeds, no record in the output
sequence has kind `Ignore`, whatever lines occurred inside `Ignore`
sections. -/
theorem no_ignore_in_output (lines : List String) (ms : List Module)
    (h : parse lines = .ok ms) : ∀ m ∈ ms, m.kind ≠ Kind.ignore := by
  unfold parse parseFrom at h
  cases hf : lines.foldlM stepLine ((none : Option Module), ([] : List Module)) with
  | error e =>
    rw [hf] at h
    cases h
  | ok st =>
    rw [hf] at h
    obtain ⟨cur, mods⟩ := st
    have hinv : ∀ m ∈ mods, m.kind ≠ Kind.ignore := by
      have := foldlM_stepLine_inv (fun st => ∀ m ∈ st.2, m.kind ≠ Kind.ignore)
        (fun st l st' hP hs => by
          rcases stepLine_mods st l st' hs with h1 | ⟨c, h2⟩
          · rw [h1]; exact hP
          · rw [h2]; exact finaliseModule_no_ignore st.2 c hP)
        lines (none, []) (cur, mods) (by intro m hm; cases hm) hf
      exact this
    cases cur with
    | none => cases h
    | some c =>
      cases h
      exact finaliseModule_no_ignore mods c hinv

/-- C8 witness: an `ACCESS INFORMATION` (Ignore) section followed by a
Memory section; the Ignore record is dropped from the output. -/
theorem no_ignore_in_output_witness :
    ∃ ms, parse ["ACCESS INFORMATION", "user root", "# MEMORY"] = .ok ms ∧
      ∀ m ∈ ms, m.kind ≠ Kind.ignore :=
  ⟨_, rfl, no_ignore_in_output ["ACCESS INFORMATION", "user root", "# MEMORY"] _ rfl⟩

/-! ## Claim C2 — timestamp propagation -/

theorem headerStore_timestamp (m : Module) (key : String) (v : Option Value) :
    (headerStore m key v).timestamp = m.timestamp := by
  unfold headerStore
  cases v <;> rfl

theorem headerDerive_timestamp_some (m : Module) (T : PyDateTime)
    (h : m.timestamp = some T) : (headerDerive m).timestamp = some T := by
  unfold headerDerive
  rw [h]
  simp [h]

theorem cpuIngest_timestamp (m : Module) (line : String) (m2 : Module)
    (h : cpuIngest m line = .ok m2) : m2.timestamp = m.timestamp := by
  unfold cpuIngest at h
  split at h
  · cases h
  · cases h
    rfl

theorem networkDecl_timestamp (m : Module) (line : String) (m2 : Module)
    (h : networkDecl m line = .ok m2) : m2.timestamp = m.timestamp := by
  unfold networkDecl at h
  simp only at h
  cases h0 : pyIndex (pySplitColon line) 0 with
  | error e => rw [h0] at h; cases h
  | ok p0 =>
    rw [h0] at h
    simp only at h
    cases h1 : pyInt p0 with
    | error e => rw [h1] at h; cases h
    | ok idx =>
      rw [h1] at h
      simp only at h
      cases h2 : pyIndex (pySplitColon line) 1 with
      | error e => rw [h2] at h; cases h
      | ok p1 =>
        rw [h2] at h
        simp only at h
        cases h3 : pyIndex (pySplitColon line) 2 with
        | error e => rw [h3] at h; cases h
        | ok p2 =>
          rw [h3] at h
          simp only at h
          cases h
          rfl

/-- A successful `add_line` call never changes an already-set timestamp:
only `Header.add_line` touches `self.timestamp`, and only when it is
still `None`. -/
theorem addLine_timestamp (m : Module) (line : String) (c2 : Module)
    (sig : Option Module) (T : PyDateTime) (hT : m.timestamp = some T)
    (h : addLine m line = .ok (c2, sig)) : c2.timestamp = some T := by
  obtain ⟨k, ts, its, ex⟩ := m
  replace hT : ts = some T := hT
  subst hT
  cases k <;>
    simp only [addLine, baseAdd, headerAdd, cpuAdd, memoryAdd, networkAdd, ipAdd,
      disksAdd, mountAdd, zfsAdd, trivialAdd, rcAdd, upAdd, accumAdd] at h <;>
    repeat' split at h
  all_goals try cases h
  all_goals try rfl
  · exact headerDerive_timestamp_some _ T ((headerStore_timestamp _ _ _).trans rfl)
  · rw [cpuIngest_timestamp _ _ _ (by assumption)]
  · rw [networkDecl_timestamp _ _ _ (by assumption)]


theorem finaliseModule_ts (mods : List Module) (c : Module) (T : PyDateTime)
    (hmods : ∀ m ∈ mods, m.timestamp = some T) (hc : c.timestamp = some T) :
    ∀ m ∈ finaliseModule mods c, m.timestamp = some T := by
  intro m hm
  rcases finaliseModule_mem mods c m hm with h1 | h2
  · exact hmods m h1
  · rw [h2, finalise_timestamp]
    exact hc

theorem finaliseModule_all_ts (mods : List Module) (c : Module) (m0 : Module)
    (rest : List Module) (T : PyDateTime)
    (hm : finaliseModule mods c = m0 :: rest)
    (hts : m0.timestamp = some T)
    (hmods : mods.head? = some m0 → ∀ m ∈ mods, m.timestamp = some T)
    (hc : mods ≠ [] → mods.head? = some m0 → c.timestamp = some T) :
    ∀ m ∈ finaliseModule mods c, m.timestamp = some T := by
  unfold finaliseModule at hm ⊢
  split at hm <;> rename_i hig
  · rw [if_pos hig]
    intro m hmem
    refine hmods ?_ m hmem
    rw [hm]
    rfl
  · rw [if_neg hig]
    intro m hmem
    rcases List.mem_append.1 hmem with h1 | h2
    · have hne : mods ≠ [] := List.ne_nil_of_mem h1
      have hh : mods.head? = some m0 := by
        cases hmm : mods with
        | nil => exact absurd hmm hne
        | cons a tl =>
          rw [hmm, List.cons_append] at hm
          injection hm with ha _
          rw [ha]
          rfl
      exact hmods hh m h1
    · have hmc : m = c.finalise := by
        simpa using h2
      subst hmc
      rw [finalise_timestamp]
      cases hmm : mods with
      | nil =>
        rw [hmm, List.nil_append] at hm
        injection hm with ha _
        rw [← finalise_timestamp, ha]
        exact hts
      | cons a tl =>
        have hh : mods.head? = some m0 := by
          rw [hmm, List.cons_append] at hm
          injection hm with ha _
          rw [hmm, ha]
          rfl
        exact hc (by rw [hmm]; exact List.cons_ne_nil a tl) hh

theorem stepLine_tsInv (st : Option Module × List Module) (l : String)
    (st' : Option Module × List Module) (hP : TsInv st)
    (hs : stepLine st l = .ok st') : TsInv st' := by
  obtain ⟨cur, mods⟩ := st
  unfold stepLine at hs
  cases hdet : detectModule l with
  | some newM =>
    rw [hdet] at hs
    simp only at hs
    cases cur with
    | none =>
      cases hm : mods with
      | nil =>
        rw [hm] at hs
        cases hs
        intro T h0 hh0 _
        cases hh0
      | cons m0 rest =>
        rw [hm] at hs
        cases hs
        subst hm
        intro T h0 hh0 hts
        have hm0 : m0 = h0 := by
          rw [List.head?_cons] at hh0
          exact Option.some.inj hh0
        subst hm0
        obtain ⟨hall, _⟩ := hP T m0 rfl hts
        refine ⟨hall, ?_⟩
        intro c hc
        cases hc
        exact hts
    | some c =>
      simp only at hs
      cases hm : finaliseModule mods c with
      | nil =>
        rw [hm] at hs
        cases hs
        intro T h0 hh0 _
        cases hh0
      | cons m0 rest =>
        rw [hm] at hs
        cases hs
        intro T h0 hh0 hts
        have hm0 : m0 = h0 := by
          rw [List.head?_cons] at hh0
          exact Option.some.inj hh0
        subst hm0
        have hall : ∀ m ∈ finaliseModule mods c, m.timestamp = some T :=
          finaliseModule_all_ts mods c m0 rest T hm hts
            (fun hh => (hP T m0 hh hts).1)
            (fun _ hh => (hP T m0 hh hts).2 c rfl)
        rw [hm] at hall
        refine ⟨hall, ?_⟩
        intro c' hc'
        cases hc'
        exact hts
  | none =>
    rw [hdet] at hs
    cases cur with
    | none =>
      cases hs
      exact hP
    | some c =>
      simp only at hs
      cases hadd : addLine c l with
      | error e =>
        rw [hadd] at hs
        cases hs
      | ok p =>
        rw [hadd] at hs
        obtain ⟨c2, sig⟩ := p
        cases sig with
        | none =>
          cases hs
          intro T h0 hh0 hts
          obtain ⟨hall, hcur⟩ := hP T h0 hh0 hts
          refine ⟨hall, ?_⟩
          intro c' hc'
          cases hc'
          exact addLine_timestamp c l c2 none T (hcur c rfl) hadd
        | some n =>
          simp only at hs
          cases hm : finaliseModule mods c2 with
          | nil =>
            rw [hm] at hs
            cases hs
          | cons m0 rest =>
            rw [hm] at hs
            cases hs
            intro T h0 hh0 hts
            have hm0 : m0 = h0 := by
              rw [List.head?_cons] at hh0
              exact Option.some.inj hh0
            subst hm0
            have hall : ∀ m ∈ finaliseModule mods c2, m.timestamp = some T :=
              finaliseModule_all_ts mods c2 m0 rest T hm hts
                (fun hh => (hP T m0 hh hts).1)
                (fun _ hh =>
                  addLine_timestamp c l c2 (some n) T ((hP T m0 hh hts).2 c rfl) hadd)
            rw [hm] at hall
            refine ⟨hall, ?_⟩
            intro c' hc'
            cases hc'
            exact hts



/-- C2 counterexample: on `tsCexInput` the parse succeeds, the Header
record resolves its timestamp to `tsT`, and yet the second CPU record's
timestamp is `None` ≠ `some tsT` — the claim as stated fails when the
Header is not the first record of the output sequence. -/
theorem timestamp_propagation_cex :
    (parse tsCexInput).map (fun ms => ms.map fun m => (m.kind, m.timestamp)) =
      .ok [(Kind.cpu, none), (Kind.header, some tsT), (Kind.cpu, none)] ∧
    (none : Option PyDateTime) ≠ some tsT :=
  ⟨by decide, by decide⟩

/-- C2 amended: whenever the parse succeeds and the *first* record of
the output sequence is the Header record with a resolved timestamp `T`
(both `date` and `time` lines were present), every record of the
output — in particular every non-Header record — carries timestamp
`T`. -/
theorem timestamp_propagation (lines : List String) (ms : List Module)
    (h : parse lines = .ok ms) (m0 : Module) (h0 : ms.head? = some m0)
    (hk : m0.kind = Kind.header) (T : PyDateTime) (hT : m0.timestamp = some T) :
    ∀ m ∈ ms, m.timestamp = some T := by
  unfold parse parseFrom at h
  cases hf : lines.foldlM stepLine ((none : Option Module), ([] : List Module)) with
  | error e =>
    rw [hf] at h
    cases h
  | ok st =>
    rw [hf] at h
    obtain ⟨cur, mods⟩ := st
    have hinv : TsInv (cur, mods) :=
      foldlM_stepLine_inv TsInv stepLine_tsInv lines (none, []) (cur, mods)
        (by
          intro T' h0' hh0' _
          cases hh0')
        hf
    cases cur with
    | none => cases h
    | some c =>
      cases h
      cases hfm : finaliseModule mods c with
      | nil =>
        rw [hfm] at h0
        cases h0
      | cons a tl =>
        have ha : a = m0 := by
          rw [hfm, List.head?_cons] at h0
          exact Option.some.inj h0
        subst ha
        have hall := finaliseModule_all_ts mods c a tl T hfm hT
          (fun hh => (hinv T a hh hT).1)
          (fun _ hh => (hinv T a hh hT).2 c rfl)
        rw [hfm] at hall
        exact hall




/-- C2 amended, witness: Header first, then a CPU section; both records
carry the Header's derived timestamp. -/
theorem timestamp_propagation_witness :
    parse tsInput = .ok tsMods ∧ tsMods.head? = some tsHead ∧
    tsHead.kind = Kind.header ∧ tsHead.timestamp = some tsT ∧
    ∀ m ∈ tsMods, m.timestamp = some tsT :=
  ⟨rfl, rfl, rfl, rfl, timestamp_propagation tsInput tsMods rfl tsHead rfl rfl tsT rfl⟩

/-! ## Claim C10 — `split_first_colon` -/

theorem occursIn_single (c : Char) (l : List Char) (h : occursIn [c] l = false) :
    c ∉ l := by
  induction l with
  | nil => simp
  | cons d t ih =>
    unfold occursIn at h
    rw [Bool.or_eq_false_iff] at h
    obtain ⟨h1, h2⟩ := h
    simp only [List.isPrefixOf, Bool.and_eq_false_iff] at h1
    intro hmem
    rcases List.mem_cons.1 hmem with hcd | hct
    · subst hcd
      rcases h1 with h1 | h1
      · simp at h1
      · simp [List.isPrefixOf] at h1
    · exact ih h2 hct

theorem dropPfx_eq_none : ∀ (pat s : List Char), pat.isPrefixOf s = false →
    dropPfx pat s = none := by
  intro pat
  induction pat with
  | nil => intro s h; simp [List.isPrefixOf] at h
  | cons p ps ih =>
    intro s h
    cases s with
    | nil => rfl
    | cons c t =>
      simp only [List.isPrefixOf, Bool.and_eq_false_iff] at h
      unfold dropPfx
      by_cases hpc : p = c
      · rw [if_pos hpc]
        rcases h with h | h
        · exfalso
          rw [hpc] at h
          simp at h
        · exact ih t h
      · rw [if_neg hpc]

theorem dropPfx_self_append : ∀ (pat t : List Char), dropPfx pat (pat ++ t) = some t := by
  intro pat
  induction pat with
  | nil => intro t; rfl
  | cons p ps ih =>
    intro t
    rw [List.cons_append]
    show (if p = p then dropPfx ps (ps ++ t) else none) = some t
    rw [if_pos rfl]
    exact ih t

theorem dropPfx_some_length : ∀ (pat s r : List Char), dropPfx pat s = some r →
    s.length = pat.length + r.length := by
  intro pat
  induction pat with
  | nil =>
    intro s r h
    cases h
    simp
  | cons p ps ih =>
    intro s r h
    cases s with
    | nil => cases h
    | cons c t =>
      unfold dropPfx at h
      split at h
      · have := ih t r h
        simp [List.length_cons, this]
        omega
      · cases h

theorem replGo_congr (pat rep : List Char) (hp : pat ≠ []) :
    ∀ (f1 : Nat) (s : List Char) (f2 : Nat), s.length ≤ f1 → s.length ≤ f2 →
      replGo f1 s pat rep = replGo f2 s pat rep := by
  intro f1
  induction f1 with
  | zero =>
    intro s f2 h1 _
    have hs : s = [] := List.eq_nil_of_length_eq_zero (Nat.le_zero.1 h1)
    subst hs
    cases f2 <;> rfl
  | succ k ih =>
    intro s f2 h1 h2
    cases s with
    | nil => cases f2 <;> rfl
    | cons c t =>
      cases f2 with
      | zero => simp at h2
      | succ k2 =>
        show replGo (k + 1) (c :: t) pat rep = replGo (k2 + 1) (c :: t) pat rep
        unfold replGo
        cases hd : dropPfx pat (c :: t) with
        | some rem =>
          have hlen := dropPfx_some_length pat (c :: t) rem hd
          have hplen : 1 ≤ pat.length := by
            cases pat with
            | nil => exact absurd rfl hp
            | cons a b => simp
          have hr1 : rem.length ≤ k := by
            simp [List.length_cons] at hlen h1
            omega
          have hr2 : rem.length ≤ k2 := by
            simp [List.length_cons] at hlen h2
            omega
          simp only
          rw [ih rem k2 hr1 hr2]
        | none =>
          have ht1 : t.length ≤ k := by
            simp [List.length_cons] at h1
            omega
          have ht2 : t.length ≤ k2 := by
            simp [List.length_cons] at h2
            omega
          simp only
          rw [ih t k2 ht1 ht2]

theorem replGo_no_occurs (pat : List Char) :
    ∀ (f : Nat) (s : List Char), s.length ≤ f → occursIn pat s = false →
      replGo f s pat [] = s := by
  intro f
  induction f with
  | zero =>
    intro s h1 _
    have hs : s = [] := List.eq_nil_of_length_eq_zero (Nat.le_zero.1 h1)
    subst hs
    rfl
  | succ k ih =>
    intro s h1 h2
    cases s with
    | nil => rfl
    | cons c t =>
      unfold occursIn at h2
      rw [Bool.or_eq_false_iff] at h2
      obtain ⟨hpfx, hocc⟩ := h2
      show replGo (k + 1) (c :: t) pat [] = c :: t
      unfold replGo
      rw [dropPfx_eq_none pat (c :: t) hpfx]
      have ht : t.length ≤ k := by
        simp [List.length_cons] at h1
        omega
      rw [ih t ht hocc]

theorem trimRightL_length_le (l : List Char) : (trimRightL l).length ≤ l.length := by
  unfold trimRightL
  rw [List.length_reverse]
  calc (List.dropWhile isPyWS l.reverse).length
      ≤ l.reverse.length := (List.dropWhile_suffix _).length_le
    _ = l.length := List.length_reverse l

theorem trimLeftL_length_le (l : List Char) : (trimLeftL l).length ≤ l.length :=
  (List.dropWhile_suffix _).length_le

theorem trimRightL_eq_nil_iff (l : List Char) :
    trimRightL l = [] ↔ ∀ x ∈ l, isPyWS x = true := by
  unfold trimRightL
  rw [List.reverse_eq_nil_iff, List.dropWhile_eq_nil_iff]
  constructor
  · intro h x hx
    exact h x (List.mem_reverse.2 hx)
  · intro h x hx
    exact h x (List.mem_reverse.1 hx)

theorem trimLeftL_eq_nil_iff (l : List Char) :
    trimLeftL l = [] ↔ ∀ x ∈ l, isPyWS x = true := by
  unfold trimLeftL
  rw [List.dropWhile_eq_nil_iff]

theorem trimRightL_cons (c : Char) (t : List Char) :
    trimRightL (c :: t) =
      if trimRightL t = [] then (if isPyWS c then [] else [c])
      else c :: trimRightL t := by
  unfold trimRightL
  rw [List.reverse_cons, List.dropWhile_append]
  cases hdt : List.dropWhile isPyWS t.reverse with
  | nil =>
    simp only [hdt, List.isEmpty_nil, List.reverse_nil, if_true]
    by_cases hc : isPyWS c <;> simp [List.dropWhile_cons, hc]
  | cons a b =>
    simp only [hdt, List.isEmpty_cons, List.reverse_cons]
    simp [List.reverse_append]

theorem stripL_self_parts (L : List Char) (h : stripL L = L) :
    trimLeftL L = L ∧ trimRightL L = L := by
  have h1 : L.length ≤ (trimLeftL L).length := by
    calc L.length = (stripL L).length := by rw [h]
      _ = (trimRightL (trimLeftL L)).length := rfl
      _ ≤ (trimLeftL L).length := trimRightL_length_le _
  have h2 : trimLeftL L = L :=
    (List.dropWhile_suffix _).eq_of_length
      (Nat.le_antisymm (trimLeftL_length_le L) h1)
  refine ⟨h2, ?_⟩
  unfold stripL at h
  rw [h2] at h
  exact h

theorem dropWhile_idem (p : Char → Bool) (l : List Char) :
    List.dropWhile p (List.dropWhile p l) = List.dropWhile p l := by
  induction l with
  | nil => rfl
  | cons c t ih =>
    rw [List.dropWhile_cons]
    by_cases hc : p c
    · rw [if_pos hc]
      exact ih
    · rw [if_neg hc, List.dropWhile_cons, if_neg hc]

theorem trimRightL_idem (l : List Char) : trimRightL (trimRightL l) = trimRightL l := by
  unfold trimRightL
  rw [List.reverse_reverse, dropWhile_idem]

theorem trim_commute : ∀ l : List Char,
    trimLeftL (trimRightL l) = trimRightL (trimLeftL l) := by
  intro l
  induction l with
  | nil => rfl
  | cons c t ih =>
    by_cases hc : isPyWS c
    · have hL : trimLeftL (c :: t) = trimLeftL t := by
        unfold trimLeftL
        rw [List.dropWhile_cons, if_pos hc]
      rw [hL, trimRightL_cons]
      by_cases ht : trimRightL t = []
      · rw [if_pos ht, if_pos hc, ← ih, ht]
      · rw [if_neg ht]
        have hL2 : trimLeftL (c :: trimRightL t) = trimLeftL (trimRightL t) := by
          unfold trimLeftL
          rw [List.dropWhile_cons, if_pos hc]
        rw [hL2, ih]
    · have hLid : ∀ x : List Char, trimLeftL (c :: x) = c :: x := fun x => by
        unfold trimLeftL
        rw [List.dropWhile_cons, if_neg hc]
      rw [hLid, trimRightL_cons]
      by_cases ht : trimRightL t = []
      · rw [if_pos ht, if_neg hc, hLid]
      · rw [if_neg ht, hLid]

theorem stripL_trimRightL (l : List Char) : stripL (trimRightL l) = stripL l := by
  unfold stripL
  rw [trim_commute, trimRightL_idem]

theorem stripL_cons_ws (c : Char) (l : List Char) (h : isPyWS c = true) :
    stripL (c :: l) = stripL l := by
  unfold stripL trimLeftL
  rw [List.dropWhile_cons, if_pos h]

theorem stripL_cons_nonws (c : Char) (l : List Char) (h : isPyWS c = false) :
    stripL (c :: l) = if trimRightL l = [] then [c] else c :: trimRightL l := by
  unfold stripL
  have hL : trimLeftL (c :: l) = c :: l := by
    unfold trimLeftL
    rw [List.dropWhile_cons, if_neg (by simp [h])]
  rw [hL, trimRightL_cons]
  by_cases ht : trimRightL l = []
  · rw [if_pos ht, if_pos ht, if_neg (by simp [h])]
  · rw [if_neg ht, if_neg ht]

theorem trimLeftL_cons_self (c : Char) (t : List Char)
    (h : trimLeftL (c :: t) = c :: t) : isPyWS c = false := by
  by_cases hc : isPyWS c = true
  · exfalso
    unfold trimLeftL at h
    rw [List.dropWhile_cons, if_pos hc] at h
    have hlen := congrArg List.length h
    have hle : (List.dropWhile isPyWS t).length ≤ t.length :=
      (List.dropWhile_suffix _).length_le
    simp [List.length_cons] at hlen
    omega
  · exact eq_false_of_ne_true hc

theorem trimRightL_self_rev_head (L : List Char) (h : trimRightL L = L)
    (c : Char) (t : List Char) (hrev : L.reverse = c :: t) : isPyWS c = false := by
  have h2 : List.dropWhile isPyWS L.reverse = L.reverse := by
    unfold trimRightL at h
    have hr := congrArg List.reverse h
    rwa [List.reverse_reverse] at hr
  rw [hrev] at h2
  exact trimLeftL_cons_self c t h2

theorem stripL_eq_self (c0 : Char) (t0 : List Char)
    (h0 : isPyWS c0 = false) (cl : Char) (tl : List Char)
    (hr : (c0 :: t0).reverse = cl :: tl) (hlast : isPyWS cl = false) :
    stripL (c0 :: t0) = c0 :: t0 := by
  unfold stripL trimLeftL trimRightL
  rw [List.dropWhile_cons, if_neg (by simp [h0])]
  rw [hr, List.dropWhile_cons, if_neg (by simp [hlast])]
  rw [← hr, List.reverse_reverse]

theorem splitOnCharL_ne_nil (sep : Char) (l : List Char) : splitOnCharL sep l ≠ [] := by
  cases l with
  | nil => simp [splitOnCharL]
  | cons c rest =>
    unfold splitOnCharL
    cases h : splitOnCharL sep rest with
    | nil => simp
    | cons g gs => by_cases hc : c = sep <;> simp [hc]

theorem splitOnCharL_head (sep : Char) : ∀ (K R : List Char), (∀ c ∈ K, c ≠ sep) →
    (splitOnCharL sep (K ++ sep :: R)).headD [] = K := by
  intro K
  induction K with
  | nil =>
    intro R _
    rw [List.nil_append]
    show (splitOnCharL sep (sep :: R)).headD [] = []
    unfold splitOnCharL
    cases h : splitOnCharL sep R with
    | nil => exact absurd h (splitOnCharL_ne_nil sep R)
    | cons g gs => simp
  | cons c K' ih =>
    intro R hK
    have hc : c ≠ sep := hK c (List.mem_cons_self c K')
    rw [List.cons_append]
    show (splitOnCharL sep (c :: (K' ++ sep :: R))).headD [] = c :: K'
    unfold splitOnCharL
    cases h : splitOnCharL sep (K' ++ sep :: R) with
    | nil => exact absurd h (splitOnCharL_ne_nil sep _)
    | cons g gs =>
      have ihR := ih R (fun x hx => hK x (List.mem_cons_of_mem _ hx))
      rw [h] at ihR
      simp only [List.headD_cons] at ihR
      simp only [h]
      rw [if_neg hc]
      simp [ihR]

theorem replGo_skip (p0 : Char) (pat' rep : List Char) (c : Char)
    (t : List Char) (f : Nat) (hne : p0 ≠ c) :
    replGo (f + 1) (c :: t) (p0 :: pat') rep = c :: replGo f t (p0 :: pat') rep := by
  have hd : dropPfx (p0 :: pat') (c :: t) = none := by
    show (if p0 = c then dropPfx pat' t else none) = none
    rw [if_neg hne]
  show (match dropPfx (p0 :: pat') (c :: t) with
    | some rem => rep ++ replGo f rem (p0 :: pat') rep
    | none => c :: replGo f t (p0 :: pat') rep) = c :: replGo f t (p0 :: pat') rep
  rw [hd]

theorem replGo_line (k0 : Char) (K' V : List Char)
    (hcolon : k0 ≠ ':') (hspace : k0 ≠ ' ') :
    replGo ((k0 :: K') ++ ':' :: ' ' :: V).length ((k0 :: K') ++ ':' :: ' ' :: V)
        (k0 :: K') [] =
      ':' :: ' ' :: replGo V.length V (k0 :: K') [] := by
  have hlen : ((k0 :: K') ++ ':' :: ' ' :: V).length = (K'.length + V.length + 2) + 1 := by
    simp [List.length_append]
    omega
  rw [hlen]
  have hstep1 : replGo ((K'.length + V.length + 2) + 1) ((k0 :: K') ++ ':' :: ' ' :: V)
      (k0 :: K') [] =
      replGo (K'.length + V.length + 2) (':' :: ' ' :: V) (k0 :: K') [] := by
    rw [List.cons_append]
    have hd : dropPfx (k0 :: K') (k0 :: (K' ++ ':' :: ' ' :: V)) =
        some (':' :: ' ' :: V) := by
      show (if k0 = k0 then dropPfx K' (K' ++ ':' :: ' ' :: V) else none) = _
      rw [if_pos rfl]
      exact dropPfx_self_append K' _
    show (match dropPfx (k0 :: K') (k0 :: (K' ++ ':' :: ' ' :: V)) with
      | some rem => [] ++ replGo (K'.length + V.length + 2) rem (k0 :: K') []
      | none =>
        k0 :: replGo (K'.length + V.length + 2) (K' ++ ':' :: ' ' :: V) (k0 :: K') []) = _
    rw [hd]
    simp
  rw [hstep1]
  rw [show K'.length + V.length + 2 = (K'.length + V.length + 1) + 1 from rfl]
  rw [replGo_skip k0 K' [] ':' (' ' :: V) _ hcolon]
  rw [replGo_skip k0 K' [] ' ' V _ hspace]
  rw [replGo_congr (k0 :: K') [] (by simp) (K'.length + V.length) V V.length
    (Nat.le_add_left _ _) (Nat.le_refl _)]

/-- C10: on a line `<key>: <value>` with a trimmed non-empty key that
contains no colon, and a trimmed non-empty value, `split_first_colon`
returns the key, and as data the text after the first colon with
**every** occurrence of the key string deleted (because the code runs
`line.replace(key, '')` over the whole line) and the result stripped.
When the key does not reoccur inside the value this is exactly the
value; when it does, each occurrence is deleted (e.g.
`model name: AMD model name X` stores `AMD  X`). -/
theorem split_first_colon_spec (k v : String)
    (hkt : pyStrip k = k) (hkn : k ≠ "") (hkc : pyContains k ":" = false)
    (hvt : pyStrip v = v) (hvn : v ≠ "") :
    splitFirstColon (k ++ ": " ++ v) = (k, pyStrip (pyReplace v k "")) ∧
    (pyContains v k = false → pyStrip (pyReplace v k "") = v) := by
  obtain ⟨K⟩ := k
  obtain ⟨V⟩ := v
  have hKs : stripL K = K := congrArg String.data hkt
  have hVs : stripL V = V := congrArg String.data hvt
  have hKne : K ≠ [] := fun h => hkn (by rw [h])
  have hVne : V ≠ [] := fun h => hvn (by rw [h])
  have hKcolon : ':' ∉ K := occursIn_single ':' K hkc
  obtain ⟨k0, K', hK⟩ : ∃ a t, K = a :: t := by
    cases K with
    | nil => exact absurd rfl hKne
    | cons a t => exact ⟨a, t, rfl⟩
  subst hK
  have hKparts := stripL_self_parts _ hKs
  have hk0 : isPyWS k0 = false := trimLeftL_cons_self k0 K' hKparts.1
  have hk0c : k0 ≠ ':' := by
    intro h
    subst h
    exact hKcolon (List.mem_cons_self _ _)
  have hk0sp : k0 ≠ ' ' := by
    intro h
    rw [h] at hk0
    exact absurd hk0 (by decide)
  have hVparts := stripL_self_parts _ hVs
  obtain ⟨vlast, Vr', hVrev⟩ : ∃ a t, V.reverse = a :: t := by
    cases hv : V.reverse with
    | nil => exact absurd (List.reverse_eq_nil_iff.1 hv) hVne
    | cons a t => exact ⟨a, t, rfl⟩
  have hvlast : isPyWS vlast = false :=
    trimRightL_self_rev_head V hVparts.2 vlast Vr' hVrev
  have hcat : (⟨k0 :: K'⟩ : String) ++ ": " ++ ⟨V⟩ = ⟨(k0 :: K') ++ ':' :: ' ' :: V⟩ := by
    apply String.ext
    rw [String.data_append, String.data_append]
    simp
  have hlinerev : ∃ tl, ((k0 :: K') ++ ':' :: ' ' :: V).reverse = vlast :: tl := by
    rw [List.reverse_append]
    rw [show (':' :: ' ' :: V).reverse = V.reverse ++ [' ', ':'] from by simp]
    rw [hVrev]
    exact ⟨Vr' ++ [' ', ':'] ++ (k0 :: K').reverse, by simp⟩
  obtain ⟨tl, hlrev⟩ := hlinerev
  have hstripline : stripL ((k0 :: K') ++ ':' :: ' ' :: V) = (k0 :: K') ++ ':' :: ' ' :: V := by
    rw [List.cons_append]
    rw [List.cons_append] at hlrev
    exact stripL_eq_self k0 (K' ++ ':' :: ' ' :: V) hk0 vlast tl hlrev hvlast
  have hstriplineS : pyStrip ⟨(k0 :: K') ++ ':' :: ' ' :: V⟩ = ⟨(k0 :: K') ++ ':' :: ' ' :: V⟩ :=
    congrArg String.mk hstripline
  have hkstr : pyStrip ⟨k0 :: K'⟩ = ⟨k0 :: K'⟩ := congrArg String.mk hKs
  have hkey : (pySplitColon ⟨(k0 :: K') ++ ':' :: ' ' :: V⟩).headD "" = ⟨k0 :: K'⟩ := by
    unfold pySplitColon
    have hsp := splitOnCharL_head ':' (k0 :: K') (' ' :: V)
      (fun c hc h => hKcolon (h ▸ hc))
    cases hs : splitOnCharL ':' ((k0 :: K') ++ ':' :: ' ' :: V) with
    | nil => exact absurd hs (splitOnCharL_ne_nil ':' _)
    | cons g gs =>
      rw [hs] at hsp
      simp only [List.headD_cons] at hsp
      simp [hs, hsp]
  have hrepl : pyReplace ⟨(k0 :: K') ++ ':' :: ' ' :: V⟩ ⟨k0 :: K'⟩ "" =
      ⟨':' :: ' ' :: replGo V.length V (k0 :: K') []⟩ := by
    unfold pyReplace
    rw [if_neg (by simp)]
    exact congrArg String.mk (replGo_line k0 K' V hk0c hk0sp)
  have hreplV : pyReplace ⟨V⟩ ⟨k0 :: K'⟩ "" = ⟨replGo V.length V (k0 :: K') []⟩ := by
    unfold pyReplace
    rw [if_neg (by simp)]
  have hdata : pyStrip ⟨':' :: ' ' :: replGo V.length V (k0 :: K') []⟩ =
      ⟨':' :: trimRightL (' ' :: replGo V.length V (k0 :: K') [])⟩ := by
    refine congrArg String.mk ?_
    rw [stripL_cons_nonws ':' _ (by decide)]
    by_cases h : trimRightL (' ' :: replGo V.length V (k0 :: K') []) = []
    · rw [if_pos h, h]
    · rw [if_neg h]
  have hfinal :
      pyStrip ⟨((⟨':' :: trimRightL (' ' :: replGo V.length V (k0 :: K') [])⟩ :
        String)).data.drop 1⟩ = pyStrip ⟨replGo V.length V (k0 :: K') []⟩ := by
    refine congrArg String.mk ?_
    show stripL (trimRightL (' ' :: replGo V.length V (k0 :: K') [])) = _
    rw [stripL_trimRightL]
    exact stripL_cons_ws ' ' _ (by decide)
  constructor
  · show (pyStrip ((pySplitColon (pyStrip (⟨k0 :: K'⟩ ++ ": " ++ ⟨V⟩))).headD ""),
      pyStrip ⟨(pyStrip (pyReplace (pyStrip (⟨k0 :: K'⟩ ++ ": " ++ ⟨V⟩))
        (pyStrip ((pySplitColon (pyStrip (⟨k0 :: K'⟩ ++ ": " ++ ⟨V⟩))).headD "")) "")).data.drop 1⟩) = _
    rw [hcat, hstriplineS, hkey, hkstr, hrepl, hdata, hfinal, hreplV]
  · intro hocc
    rw [hreplV]
    rw [replGo_no_occurs (k0 :: K') V.length V (Nat.le_refl _) hocc]
    exact congrArg String.mk hVs

/-- C10 witness: the claim's own example `model name: AMD model name X`,
whose stored value loses the inner `model name`. -/
theorem split_first_colon_spec_witness :
    (splitFirstColon ("model name" ++ ": " ++ "AMD model name X") =
      ("model name", pyStrip (pyReplace "AMD model name X" "model name" "")) ∧
    (pyContains "AMD model name X" "model name" = false →
      pyStrip (pyReplace "AMD model name X" "model name" "") = "AMD model name X")) ∧
    pyStrip (pyReplace "AMD model name X" "model name" "") = "AMD  X" :=
  ⟨split_first_colon_spec "model name" "AMD model name X"
    (by decide) (by decide) (by decide) (by decide) (by decide), by decide⟩

/-- C5 amended, witness: two users with surrounding whitespace. -/
theorem users_groups_fields_witness :
    (∀ l ∈ (["  alice  ", "bob"] : List String), pyStrip l ≠ "") ∧
    ∃ m, ingestRecord Kind.users ["  alice  ", "bob"] = .ok m ∧
      fields m.finalise =
        (["  alice  ", "bob"] : List String).enum.map
          (fun p => (Key.n p.1, Value.vStr (pyStrip p.2))) :=
  ⟨by decide, users_groups_fields Kind.users (Or.inl rfl) ["  alice  ", "bob"] (by decide)⟩

/-! ## Claim C1 — CPU section splitting -/










theorem cpuKeyOf_blank (r : String) (h : pyStrip r = "") : cpuKeyOf r = "" := by
  unfold cpuKeyOf
  rw [h]
  decide

theorem cpuIngest_ok (m : Module) (r : String) (hok : exOk (cpuValue r) = true) :
    ∃ v, cpuValue r = .ok v ∧
      cpuIngest m r = .ok {m with items := dinsert (Key.s (cpuKeyOf r)) v m.items} := by
  cases hcv : cpuValue r with
  | error e =>
    rw [hcv] at hok
    exact absurd hok (by simp [exOk])
  | ok v =>
    refine ⟨v, rfl, ?_⟩
    unfold cpuIngest
    rw [hcv]
    rfl

theorem cpuValue_proc (p : String) (i : Int) (hkey : cpuKeyOf p = "processor")
    (hint : pyInt (splitFirstColon (pyStrip p)).2 = .ok i) :
    cpuValue p = .ok (Value.vInt i) := by
  have hkey' : (splitFirstColon (pyStrip p)).1 = "processor" := hkey
  unfold cpuValue
  rw [hkey', if_pos (by decide), hint]
  rfl

theorem timestamp_update_self (n : Module) (h : n.timestamp = none) :
    {n with timestamp := (none : Option PyDateTime)} = n := by
  obtain ⟨a, b, c, d⟩ := n
  replace h : b = none := h
  subst h
  rfl

/-- Ingesting a `restLineOk` line into a CPU record: no split, kind and
timestamp preserved, and the `processor` field untouched. -/
theorem cpuAdd_rest (c : Module) (hc : c.kind = Kind.cpu) (r : String)
    (hr : restLineOk r) :
    ∃ c2, addLine c r = .ok (c2, none) ∧ ingest1 c r = .ok c2 ∧
      c2.kind = Kind.cpu ∧ c2.timestamp = c.timestamp ∧
      (∀ i, lookupItem c (Key.s "processor") = some (Value.vInt i) →
        lookupItem c2 (Key.s "processor") = some (Value.vInt i)) := by
  obtain ⟨hdet, hcase⟩ := hr
  by_cases hb : pyStrip r = ""
  · exact ⟨c, blank_line_is_noop c r hb,
      (by unfold ingest1; rw [blank_line_is_noop c r hb]), hc, rfl, fun i h => h⟩
  · rcases hcase with hblank | ⟨hkey, hok⟩
    · exact absurd hblank hb
    obtain ⟨v, hcv, hci⟩ := cpuIngest_ok c r hok
    obtain ⟨mk, ts, its, ex⟩ := c
    replace hc : mk = Kind.cpu := hc
    subst hc
    refine ⟨{ kind := Kind.cpu, timestamp := ts,
              items := dinsert (Key.s (cpuKeyOf r)) v its, extra := ex },
      ?_, ?_, rfl, rfl, ?_⟩
    · show cpuAdd _ _ = _
      unfold cpuAdd
      rw [if_neg hb, if_neg (fun hand => hkey hand.1), hci]
    · unfold ingest1
      show (match cpuAdd _ _ with
        | .error e => Except.error e
        | .ok p => Except.ok p.1) = _
      unfold cpuAdd
      rw [if_neg hb, if_neg (fun hand => hkey hand.1), hci]
    · intro i h
      show lookupKV (Key.s "processor") (dinsert (Key.s (cpuKeyOf r)) v its) = _
      rw [lookupKV_dinsert_ne _ _ _ _ (fun he => hkey (Key.s.inj he).symm)]
      exact h

/-- Ingesting a well-formed `processor` line into a CPU record without
a `processor` field: the ingestion path, no split. -/
theorem cpuAdd_proc_fresh (c : Module) (hc : c.kind = Kind.cpu)
    (hnop : lookupItem c (Key.s "processor") = none)
    (p : String) (i : Int) (hkey : cpuKeyOf p = "processor")
    (hint : pyInt (splitFirstColon (pyStrip p)).2 = .ok i) :
    ∃ c2, addLine c p = .ok (c2, none) ∧ ingest1 c p = .ok c2 ∧
      cpuIngest c p = .ok c2 ∧
      c2.kind = Kind.cpu ∧ c2.timestamp = c.timestamp ∧
      lookupItem c2 (Key.s "processor") = some (Value.vInt i) := by
  have hnb : pyStrip p ≠ "" := by
    intro h
    rw [cpuKeyOf_blank p h] at hkey
    exact absurd hkey (by decide)
  have hci : cpuIngest c p =
      .ok {c with items := dinsert (Key.s (cpuKeyOf p)) (Value.vInt i) c.items} := by
    unfold cpuIngest
    rw [cpuValue_proc p i hkey hint]
    rfl
  have hnosplit : ¬((splitFirstColon (pyStrip p)).1 = "processor" ∧
      hasKeyS c "processor" = true) := by
    intro hand
    rw [hasKeyS, hnop] at hand
    exact absurd hand.2 (by simp)
  obtain ⟨mk, ts, its, ex⟩ := c
  replace hc : mk = Kind.cpu := hc
  subst hc
  refine ⟨{ kind := Kind.cpu, timestamp := ts,
            items := dinsert (Key.s (cpuKeyOf p)) (Value.vInt i) its, extra := ex },
    ?_, ?_, ?_, rfl, rfl, ?_⟩
  · show cpuAdd _ _ = _
    unfold cpuAdd
    rw [if_neg hnb, if_neg hnosplit, hci]
  · unfold ingest1
    show (match cpuAdd _ _ with
      | .error e => Except.error e
      | .ok p => Except.ok p.1) = _
    unfold cpuAdd
    rw [if_neg hnb, if_neg hnosplit, hci]
  · exact hci
  · show lookupKV (Key.s "processor")
      (dinsert (Key.s (cpuKeyOf p)) (Value.vInt i) its) = _
    rw [hkey, lookupKV_dinsert_self]

/-- Ingesting a well-formed `processor` line into a CPU record that
already has a `processor` field: the split branch; `self` is untouched
and the signal is the freshly seeded record. -/
theorem cpuAdd_proc_split (c : Module) (hc : c.kind = Kind.cpu)
    (i0 : Int) (hp0 : lookupItem c (Key.s "processor") = some (Value.vInt i0))
    (p : String) (i : Int) (hkey : cpuKeyOf p = "processor")
    (hint : pyInt (splitFirstColon (pyStrip p)).2 = .ok i) :
    ∃ n, addLine c p = .ok (c, some n) ∧
      ingest1 (freshModule Kind.cpu) p = .ok n ∧ GoodCur n i := by
  obtain ⟨n, _, hingf, hcing, hkn, htn, hpn⟩ :=
    cpuAdd_proc_fresh (freshModule Kind.cpu) rfl (by rfl) p i hkey hint
  have hnb : pyStrip p ≠ "" := by
    intro h
    rw [cpuKeyOf_blank p h] at hkey
    exact absurd hkey (by decide)
  have hsplit : (splitFirstColon (pyStrip p)).1 = "processor" ∧
      hasKeyS c "processor" = true := by
    refine ⟨hkey, ?_⟩
    rw [hasKeyS, hp0]
    rfl
  refine ⟨n, ?_, hingf, hkn, htn, hpn⟩
  obtain ⟨mk, ts, its, ex⟩ := c
  replace hc : mk = Kind.cpu := hc
  subst hc
  show cpuAdd _ _ = _
  unfold cpuAdd
  rw [if_neg hnb, if_pos hsplit, hcing]

/-- One driver step on a CPU body line: the module list is untouched. -/
theorem step_cpu_rest (c : Module) (mods : List Module) (r : String)
    (hc : c.kind = Kind.cpu) (hr : restLineOk r) :
    ∃ c2, stepLine (some c, mods) r = .ok (some c2, mods) ∧ ingest1 c r = .ok c2 ∧
      c2.kind = Kind.cpu ∧ c2.timestamp = c.timestamp ∧
      (∀ i, lookupItem c (Key.s "processor") = some (Value.vInt i) →
        lookupItem c2 (Key.s "processor") = some (Value.vInt i)) := by
  obtain ⟨c2, hadd, hing, hk, ht, hp⟩ := cpuAdd_rest c hc r hr
  refine ⟨c2, ?_, hing, hk, ht, hp⟩
  unfold stepLine
  rw [hr.1]
  simp only
  rw [hadd]

/-- Folding a block body over the driver: the current record absorbs
the lines exactly as record-level ingestion does. -/
theorem step_cpu_restFold : ∀ (rest : List String) (c : Module) (mods : List Module)
    (i : Int), GoodCur c i → (∀ r ∈ rest, restLineOk r) →
    ∃ c2, List.foldlM stepLine ((some c : Option Module), mods) rest = .ok (some c2, mods) ∧
      List.foldlM ingest1 c rest = .ok c2 ∧ GoodCur c2 i := by
  intro rest
  induction rest with
  | nil =>
    intro c mods i hg _
    exact ⟨c, rfl, rfl, hg⟩
  | cons r rest ih =>
    intro c mods i hg hrs
    obtain ⟨c2, hstep, hing, hk, ht, hp⟩ :=
      step_cpu_rest c mods r hg.1 (hrs r (List.mem_cons_self _ _))
    have hg2 : GoodCur c2 i := ⟨hk, by rw [ht]; exact hg.2.1, hp i hg.2.2⟩
    obtain ⟨c3, hfold, hifold, hg3⟩ := ih c2 mods i hg2
      (fun r' h => hrs r' (List.mem_cons_of_mem _ h))
    refine ⟨c3, ?_, ?_, hg3⟩
    · rw [List.foldlM_cons, hstep]
      exact hfold
    · rw [List.foldlM_cons, hing]
      exact hifold

/-- One driver step on a repeated `processor` line: the current record
is finalized and appended, the seeded record becomes current with the
timestamp of `modules[0]` (which is `None` throughout a lone CPU
section). -/
theorem step_cpu_proc_split (c : Module) (mods : List Module) (i0 : Int) (b : CpuBlock)
    (hg : GoodCur c i0) (hb : procLineOk b) (hmods : ModsNone mods) :
    ∃ n, stepLine (some c, mods) b.procLine = .ok (some n, mods ++ [c.finalise]) ∧
      ingest1 (freshModule Kind.cpu) b.procLine = .ok n ∧ GoodCur n b.procVal := by
  obtain ⟨n, hadd, hingf, hgn⟩ :=
    cpuAdd_proc_split c hg.1 i0 hg.2.2 b.procLine b.procVal hb.2.1 hb.2.2
  refine ⟨n, ?_, hingf, hgn⟩
  have hfm : finaliseModule mods c = mods ++ [c.finalise] := by
    unfold finaliseModule
    rw [if_neg (by rw [hg.1]; decide)]
  have hm0 : ∀ m0 rest, mods ++ [c.finalise] = m0 :: rest → m0.timestamp = none := by
    intro m0 rest hm
    cases hmm : mods with
    | nil =>
      rw [hmm, List.nil_append] at hm
      injection hm with h1 _
      rw [← h1, finalise_timestamp]
      exact hg.2.1
    | cons a tl =>
      rw [hmm, List.cons_append] at hm
      injection hm with h1 _
      rw [← h1]
      exact hmods a (by rw [hmm]; exact List.mem_cons_self _ _)
  unfold stepLine
  rw [hb.1]
  simp only
  rw [hadd]
  simp only [hfm]
  cases hm : mods ++ [c.finalise] with
  | nil => exact absurd hm (by simp)
  | cons m0 rest =>
    simp only
    rw [hm0 m0 rest hm, timestamp_update_self n hgn.2.1]

theorem parseFrom_step (st st2 : Option Module × List Module) (l : String)
    (ls : List String) (h : stepLine st l = .ok st2) :
    parseFrom st (l :: ls) = parseFrom st2 ls := by
  unfold parseFrom
  rw [List.foldlM_cons, h]
  rfl

theorem parseFrom_fold : ∀ (rest : List String) (st st2 : Option Module × List Module),
    List.foldlM stepLine st rest = .ok st2 → ∀ ls,
    parseFrom st (rest ++ ls) = parseFrom st2 ls := by
  intro rest
  induction rest with
  | nil =>
    intro st st2 h ls
    replace h : Except.ok st = .ok st2 := h
    cases h
    rfl
  | cons l t ih =>
    intro st st2 h ls
    rw [List.foldlM_cons] at h
    cases hs : stepLine st l with
    | error e =>
      rw [hs] at h
      replace h : (Except.error e : Except PyError (Option Module × List Module)) = .ok st2 := h
      cases h
    | ok st1 =>
      rw [hs] at h
      replace h : List.foldlM stepLine st1 t = .ok st2 := h
      rw [List.cons_append, parseFrom_step st st1 l (t ++ ls) hs]
      exact ih st1 st2 h ls

/-- The block induction: from a CPU current record holding `processor`
value `i` and timestamp-less accumulated modules, the remaining blocks
produce exactly one finalized CPU record each, each equal to the
record-level ingestion of its own block's lines from a fresh record. -/
theorem parse_blocks : ∀ (blocks : List CpuBlock) (c : Module) (i : Int)
    (mods : List Module), GoodCur c i → ModsNone mods → (∀ b ∈ blocks, BlockOk b) →
    ∃ recs, parseFrom ((some c : Option Module), mods) (blocks.flatMap blockLines) =
        .ok (mods ++ c.finalise :: recs) ∧
      recs.length = blocks.length ∧
      ∀ k, k < blocks.length →
        ∃ b m, blocks[k]? = some b ∧ ingestRecord Kind.cpu (blockLines b) = .ok m ∧
          recs[k]? = some m.finalise ∧ GoodCur m b.procVal := by
  intro blocks
  induction blocks with
  | nil =>
    intro c i mods hg _ _
    refine ⟨[], ?_, rfl, fun k hk => absurd hk (by simp)⟩
    show parseFrom (some c, mods) [] = _
    unfold parseFrom
    rw [List.foldlM_nil]
    show Except.ok (finaliseModule mods c) = _
    unfold finaliseModule
    rw [if_neg (by rw [hg.1]; decide)]
  | cons b bs ih =>
    intro c i mods hg hmods hbs
    have hb : BlockOk b := hbs b (List.mem_cons_self _ _)
    obtain ⟨n, hstep, hingf, hgn⟩ := step_cpu_proc_split c mods i b hg hb.1 hmods
    obtain ⟨c2, hfold, hifold, hg2⟩ :=
      step_cpu_restFold b.rest n (mods ++ [c.finalise]) b.procVal hgn hb.2
    have hmods2 : ModsNone (mods ++ [c.finalise]) := by
      intro m hm
      rcases List.mem_append.1 hm with h1 | h2
      · exact hmods m h1
      · simp at h2
        subst h2
        rw [finalise_timestamp]
        exact hg.2.1
    obtain ⟨recs, hparse, hlen, hidx⟩ := ih c2 b.procVal (mods ++ [c.finalise]) hg2
      hmods2 (fun b' h => hbs b' (List.mem_cons_of_mem _ h))
    refine ⟨c2.finalise :: recs, ?_, by simp [hlen], ?_⟩
    · have hshape : (b :: bs).flatMap blockLines =
          b.procLine :: (b.rest ++ bs.flatMap blockLines) := rfl
      rw [hshape, parseFrom_step _ _ _ _ hstep, parseFrom_fold b.rest _ _ hfold, hparse]
      simp
    · intro k hk
      cases k with
      | zero =>
        refine ⟨b, c2, by simp, ?_, by simp, hg2⟩
        unfold ingestRecord
        show List.foldlM ingest1 (freshModule Kind.cpu) (b.procLine :: b.rest) = _
        rw [List.foldlM_cons, hingf]
        exact hifold
      | succ k2 =>
        have hk2 : k2 < bs.length := by
          simp at hk
          omega
        obtain ⟨b', m, hb', hing, hrec, hgm⟩ := hidx k2 hk2
        exact ⟨b', m, by simpa using hb', hing, by simpa using hrec, hgm⟩

/-- C1 counterexample: an input with one CPU section containing one
well-formed `processor: 0` line, plus one malformed integer line; the
parse does not return records at all — `int('abc')` raises, so the
claim as stated (over *every* input containing such a section) fails. -/
theorem cpu_section_cex :
    parse ["# CPU", "processor: 0", "model: abc"] =
      .error (.valueError "invalid literal for int") := by decide

/-- C1 amended: for an input consisting of a `# CPU` header and `n ≥ 1`
processor blocks — each a well-formed `processor: <i>` line followed by
well-formed non-`processor` CPU lines — `parse` returns exactly `n` CPU
records, in input order; the `k`-th record is exactly the finalization
of a fresh CPU record fed only the `k`-th block's lines, and its
`processor` field holds the `k`-th block's integer (so no field
ingested after the `k`-th `processor` line lands in any other
record). -/
theorem cpu_section_blocks (blocks : List CpuBlock) (hne : blocks ≠ [])
    (hbs : ∀ b ∈ blocks, BlockOk b) :
    ∃ recs, parse ("# CPU" :: blocks.flatMap blockLines) = .ok recs ∧
      recs.length = blocks.length ∧
      ∀ k, k < blocks.length →
        ∃ b m, blocks[k]? = some b ∧
          ingestRecord Kind.cpu (blockLines b) = .ok m ∧
          recs[k]? = some m.finalise ∧
          m.kind = Kind.cpu ∧
          lookupItem m (Key.s "processor") = some (Value.vInt b.procVal) := by
  have hstep0 : stepLine ((none : Option Module), ([] : List Module)) "# CPU" =
      .ok (some (freshModule Kind.cpu), []) := by decide
  cases blocks with
  | nil => exact absurd rfl hne
  | cons b bs =>
    have hb : BlockOk b := hbs b (List.mem_cons_self _ _)
    obtain ⟨n, haddp, hingp, _, hkn, htn, hpn⟩ :=
      cpuAdd_proc_fresh (freshModule Kind.cpu) rfl (by rfl) b.procLine b.procVal
        hb.1.2.1 hb.1.2.2
    have hstep1 : stepLine (some (freshModule Kind.cpu), ([] : List Module)) b.procLine =
        .ok (some n, []) := by
      unfold stepLine
      rw [hb.1.1]
      simp only
      rw [haddp]
    have hgn : GoodCur n b.procVal := ⟨hkn, by rw [htn]; rfl, hpn⟩
    obtain ⟨c2, hfold, hifold, hg2⟩ := step_cpu_restFold b.rest n [] b.procVal hgn hb.2
    obtain ⟨recs, hparse, hlen, hidx⟩ := parse_blocks bs c2 b.procVal [] hg2
      (fun m hm => absurd hm (List.not_mem_nil m))
      (fun b' h => hbs b' (List.mem_cons_of_mem _ h))
    refine ⟨c2.finalise :: recs, ?_, by simp [hlen], ?_⟩
    · have hshape : "# CPU" :: (b :: bs).flatMap blockLines =
          "# CPU" :: b.procLine :: (b.rest ++ bs.flatMap blockLines) := rfl
      show parseFrom (none, []) _ = _
      rw [hshape, parseFrom_step _ _ _ _ hstep0, parseFrom_step _ _ _ _ hstep1,
        parseFrom_fold b.rest _ _ hfold, hparse]
      simp
    · intro k hk
      cases k with
      | zero =>
        refine ⟨b, c2, by simp, ?_, by simp, hg2.1, hg2.2.2⟩
        unfold ingestRecord
        show List.foldlM ingest1 (freshModule Kind.cpu) (b.procLine :: b.rest) = _
        rw [List.foldlM_cons, hingp]
        exact hifold
      | succ k2 =>
        have hk2 : k2 < bs.length := by
          simp at hk
          omega
        obtain ⟨b', m, hb', hing, hrec, hgm⟩ := hidx k2 hk2
        exact ⟨b', m, by simpa using hb', hing, by simpa using hrec, hgm.1, hgm.2.2⟩


/-- C1 amended, witness. -/
theorem cpu_section_blocks_witness :
    ∃ recs, parse ("# CPU" :: wBlocks.flatMap blockLines) = .ok recs ∧
      recs.length = wBlocks.length ∧
      ∀ k, k < wBlocks.length →
        ∃ b m, wBlocks[k]? = some b ∧
          ingestRecord Kind.cpu (blockLines b) = .ok m ∧
          recs[k]? = some m.finalise ∧
          m.kind = Kind.cpu ∧
          lookupItem m (Key.s "processor") = some (Value.vInt b.procVal) :=
  cpu_section_blocks wBlocks (by simp [wBlocks]) (by decide)

end Alp
